import Mathlib

/-!
# Verification of the poqr NTRU / onion-routing core

This file is a shallow embedding, in Lean 4, of the parts of the `poqr`
repository that the specification's claims talk about:

* integer helpers (`extended_gcd`, `inverse`, `center_lift`) from
  `ntru/src/convolution_polynomial.rs`;
* the convolution-polynomial ring `ConvPoly` with `trim`, `modulo`,
  `center_lift`, `add`, `sub`, `mul`, `div_mod`, `extended_gcd`, `inverse`;
* the byte <-> ternary-polynomial message codec from `ntru/src/ntru_util.rs`
  (`serialize`, `ternary`, `deserialize`, `out_of_ternary`, `bal_tern_esc`);
* NTRU encryption and decryption from `ntru/src/ntru_key.rs`, together with
  the public-key byte codec;
* the classical onion-skin wrapping from `onion/src/messages/message.rs`
  (with the classical cipher kept opaque, as the specification demands);
* the `CREATE` handler of `onion/src/nodes/relay.rs` and the circuit table
  of `onion/src/tables/circuit_table.rs`.

Machine integers (`i32`, `u8`, `u32`) are embedded as `Int` / `Nat` with
explicit range hypotheses or `% 2^w` reductions where overflow matters.
Rust `Result` values are embedded as `Except`/`Option`; a Rust `panic!` or
failed `unwrap` is embedded as `Option.none` where a claim is about the
panic, and as a precondition hypothesis where it is an asserted
precondition of the function.
-/

/-! ## Integer arithmetic (`convolution_polynomial.rs`, lines 329-404) -/

/-- Loop of the integer Extended Euclidean Algorithm.  The state mirrors the
Rust local variables `(old_r, r, old_x, x, old_y, y)`; both remainders are
non-negative, so they are `Nat` here exactly as the Rust code works on
absolute values.  The loop is given as structural recursion on a fuel
counter so that it evaluates by kernel reduction; `egcdLoop_fuel_stable`
below shows the result does not depend on the fuel once it exceeds `r`,
which is an upper bound on the number of iterations of the Rust `while`
loop (the remainder `r` strictly decreases every round). -/
def egcdLoop : Nat → Nat → Nat → Int → Int → Int → Int → Nat × Int × Int
  | 0, old_r, _r, old_x, _x, old_y, _y => (old_r, old_x, old_y)
  | fuel + 1, old_r, r, old_x, x, old_y, y =>
    if r = 0 then (old_r, old_x, old_y)
    else
      egcdLoop fuel r (old_r % r) x (old_x - x * (old_r / r : Nat)) y
        (old_y - y * (old_r / r : Nat))

theorem egcdLoop_fuel_stable :
    ∀ fuel fuel' r old_r : Nat, ∀ old_x x old_y y : Int, r < fuel → r < fuel' →
      egcdLoop fuel old_r r old_x x old_y y = egcdLoop fuel' old_r r old_x x old_y y := by
  intro fuel
  induction fuel with
  | zero => intro fuel' r _ _ _ _ _ hr _; omega
  | succ f ih =>
    intro fuel' r old_r old_x x old_y y hr hr'
    cases fuel' with
    | zero => omega
    | succ f' =>
      show egcdLoop (f + 1) old_r r old_x x old_y y = egcdLoop (f' + 1) old_r r old_x x old_y y
      by_cases hz : r = 0
      · simp [egcdLoop, hz]
      · simp only [egcdLoop, hz, if_neg, not_false_iff]
        have hlt : old_r % r < r := Nat.mod_lt _ (Nat.pos_of_ne_zero hz)
        exact ih f' (old_r % r) r x _ y _ (by omega) (by omega)

/-- The Extended Euclidean Algorithm `extended_gcd(a, b)` from
`convolution_polynomial.rs`: returns `(g, x, y)` with
`|a| * x + |b| * y = g = gcd |a| |b|`.  (The Rust code asserts that not both
arguments are zero; in that case it returns `(0, 1, 0)`, which we keep as the
total value.)  The fuel `|b| + 1` exceeds the iteration count, so by
`egcdLoop_fuel_stable` this equals the Rust loop run to completion. -/
def intExtendedGcd (a b : Int) : Nat × Int × Int :=
  egcdLoop (b.natAbs + 1) a.natAbs b.natAbs 1 0 0 1

/-- Modular inverse `inverse(a, m)` from `convolution_polynomial.rs`:
`some v` with `v ∈ [0, m)` iff `a` is a unit mod `m`, `none` for the
`Err` cases (`a = 0`, or `gcd(a, m) ≠ 1`).  The Rust code asserts `m > 0`;
theorems using this carry that hypothesis. -/
def intInverse (a m : Int) : Option Int :=
  if a = 0 then none
  else if (intExtendedGcd (a % m) m).1 = 1 then some ((intExtendedGcd (a % m) m).2.1 % m)
  else none

/-- Centered lift `center_lift(a, m)` from `convolution_polynomial.rs`:
the representative of `a` mod `m` lying in `(-m/2, m/2]`.  Lean's `%` on
`Int` is Euclidean remainder, which agrees with Rust's `rem_euclid`, and
`m / 2` agrees with Rust's `i32` division because `m > 0` wherever this is
used. -/
def intCenterLift (a m : Int) : Int :=
  if a % m ≤ m / 2 then a % m else a % m - m

/-! ### Correctness of the integer helpers -/

theorem egcdLoop_spec (a b : Nat) :
    ∀ fuel r old_r : Nat, ∀ old_x x old_y y : Int,
      (a : Int) * old_x + (b : Int) * old_y = old_r →
      (a : Int) * x + (b : Int) * y = r →
      (a : Int) * (egcdLoop fuel old_r r old_x x old_y y).2.1 +
        (b : Int) * (egcdLoop fuel old_r r old_x x old_y y).2.2 =
        (egcdLoop fuel old_r r old_x x old_y y).1 := by
  intro fuel
  induction fuel with
  | zero =>
    intro r old_r old_x x old_y y h1 _
    exact h1
  | succ f ih =>
    intro r old_r old_x x old_y y h1 h2
    by_cases hr : r = 0
    · simp only [egcdLoop, hr, if_pos]
      exact h1
    · simp only [egcdLoop, hr, if_neg, not_false_iff]
      refine ih (old_r % r) r x _ y _ h2 ?_
      have hmod : ((old_r % r : Nat) : Int) = (old_r : Int) - (r : Int) * ((old_r / r : Nat) : Int) := by
        have hdm := Nat.div_add_mod old_r r
        have h' := congrArg (fun n : Nat => (n : Int)) hdm
        simp only [Nat.cast_add, Nat.cast_mul] at h'
        linarith
      rw [hmod, ← h1, ← h2]
      ring

/-- Bezout property of the embedded integer extended gcd. -/
theorem intExtendedGcd_bezout (a b : Int) :
    a.natAbs * (intExtendedGcd a b).2.1 + b.natAbs * (intExtendedGcd a b).2.2 =
      (intExtendedGcd a b).1 := by
  unfold intExtendedGcd
  exact egcdLoop_spec a.natAbs b.natAbs (b.natAbs + 1) b.natAbs a.natAbs 1 0 0 1
    (by ring) (by ring)

/-- If `intInverse a m = some v` then `a * v ≡ 1 (mod m)`. -/
theorem intInverse_spec (a m v : Int) (hm : 0 < m) (h : intInverse a m = some v) :
    a * v ≡ 1 [ZMOD m] := by
  unfold intInverse at h
  by_cases ha : a = 0
  · simp [ha] at h
  · simp only [ha, if_neg, not_false_iff] at h
    set t := intExtendedGcd (a % m) m with ht
    by_cases hg : t.1 = 1
    · simp only [hg, if_pos] at h
      have hv : v = t.2.1 % m := (Option.some.inj h).symm
      have hb := intExtendedGcd_bezout (a % m) m
      rw [← ht] at hb
      have hnat : ((a % m).natAbs : Int) = a % m := by
        have := Int.emod_nonneg a (by omega : m ≠ 0)
        omega
      have hmnat : (m.natAbs : Int) = m := by omega
      rw [hnat, hmnat, hg] at hb
      have h1 : a ≡ a % m [ZMOD m] := (Int.emod_emod_of_dvd a dvd_rfl).symm
      have h2 : t.2.1 % m ≡ t.2.1 [ZMOD m] := Int.emod_emod_of_dvd _ dvd_rfl
      have h3 : a * v ≡ (a % m) * t.2.1 [ZMOD m] := by
        rw [hv]
        exact h1.mul h2
      have h4 : (0 : Int) ≡ m * t.2.2 [ZMOD m] :=
        (Int.modEq_zero_iff_dvd.mpr ⟨t.2.2, rfl⟩).symm
      calc a * v ≡ (a % m) * t.2.1 [ZMOD m] := h3
        _ ≡ (a % m) * t.2.1 + m * t.2.2 [ZMOD m] := by
            have := (Int.ModEq.refl ((a % m) * t.2.1)).add h4
            simpa using this
        _ = 1 := by push_cast at hb; linarith
    · simp [hg] at h

/-- The centered lift is a fixed point on values already in `(-m/2, m/2]`
(the midpoint convention of the Rust code: `a ≤ m/2` keeps `a`). -/
theorem intCenterLift_fixed (a m : Int) (hm : 0 < m) (h1 : -m < 2 * a) (h2 : 2 * a ≤ m) :
    intCenterLift a m = a := by
  unfold intCenterLift
  rcases le_or_lt 0 a with ha | ha
  · have hlt : a < m := by omega
    have hmod : a % m = a := Int.emod_eq_of_lt ha hlt
    rw [hmod]
    have hle : a ≤ m / 2 := by omega
    simp [hle]
  · have h0 : 0 ≤ a + m := by omega
    have hlt : a + m < m := by omega
    have hmod : a % m = a + m := by
      have h3 : (a + m * 1) % m = a % m := Int.add_mul_emod_self_left a m 1
      simp only [mul_one] at h3
      rw [← h3]
      exact Int.emod_eq_of_lt h0 hlt
    rw [hmod]
    have hgt : ¬ (a + m ≤ m / 2) := by omega
    simp only [hgt, if_neg, not_false_iff]
    ring

/-- The centered lift only depends on the residue class mod `m`. -/
theorem intCenterLift_congr (a b m : Int) (h : a ≡ b [ZMOD m]) :
    intCenterLift a m = intCenterLift b m := by
  unfold intCenterLift
  have hab : a % m = b % m := h
  rw [hab]

/-! ## Trailing-zero stripping

The Rust code defines `deg` as the index of the last non-zero coefficient
(or `0`), and `trim` as `truncate(deg + 1)`.  We implement the common core,
removal of trailing zeros, as a structural recursion that is convenient for
induction, and define `deg` and `trim` from it exactly with the Rust
conventions. -/

/-- Remove all trailing zeros of a coefficient list. -/
def stripzeros : List Int → List Int
  | [] => []
  | c :: rest =>
    if stripzeros rest = [] ∧ c = 0 then [] else c :: stripzeros rest

/-- Coefficient access with default `0`, the semantic view of a coefficient
list. -/
def coeffAt (l : List Int) (i : Nat) : Int := l.getD i 0

theorem stripzeros_eq_nil_iff (l : List Int) :
    stripzeros l = [] ↔ ∀ c ∈ l, c = 0 := by
  induction l with
  | nil => simp [stripzeros]
  | cons c rest ih =>
    simp only [stripzeros]
    constructor
    · intro h
      by_cases hz : stripzeros rest = [] ∧ c = 0
      · intro x hx
        rcases List.mem_cons.mp hx with h1 | h2
        · rw [h1]; exact hz.2
        · exact (ih.mp hz.1) x h2
      · rw [if_neg hz] at h
        exact absurd h (List.cons_ne_nil _ _)
    · intro h
      have hc : c = 0 := h c (List.mem_cons_self _ _)
      have hrest : stripzeros rest = [] := ih.mpr (fun x hx => h x (List.mem_cons_of_mem _ hx))
      rw [if_pos ⟨hrest, hc⟩]

theorem coeffAt_of_all_zero (l : List Int) (h : ∀ c ∈ l, c = 0) : ∀ i, coeffAt l i = 0 := by
  induction l with
  | nil => intro i; rfl
  | cons c rest ih =>
    intro i
    cases i with
    | zero => exact h c (List.mem_cons_self _ _)
    | succ j => exact ih (fun x hx => h x (List.mem_cons_of_mem _ hx)) j

theorem coeffAt_stripzeros (l : List Int) (i : Nat) :
    coeffAt (stripzeros l) i = coeffAt l i := by
  induction l generalizing i with
  | nil => rfl
  | cons c rest ih =>
    simp only [stripzeros]
    by_cases hz : stripzeros rest = [] ∧ c = 0
    · rw [if_pos hz]
      have hall : ∀ x ∈ c :: rest, x = 0 := by
        intro x hx
        rcases List.mem_cons.mp hx with h1 | h2
        · rw [h1]; exact hz.2
        · exact (stripzeros_eq_nil_iff rest).mp hz.1 x h2
      rw [coeffAt_of_all_zero _ hall i]
      rfl
    · rw [if_neg hz]
      cases i with
      | zero => rfl
      | succ j => simpa [coeffAt] using ih j

theorem stripzeros_length_le (l : List Int) : (stripzeros l).length ≤ l.length := by
  induction l with
  | nil => simp [stripzeros]
  | cons c rest ih =>
    simp only [stripzeros]
    by_cases hz : stripzeros rest = [] ∧ c = 0
    · simp [hz]
    · rw [if_neg hz]
      simpa using ih

theorem stripzeros_prefix (l : List Int) : stripzeros l <+: l := by
  induction l with
  | nil => simp [stripzeros]
  | cons c rest ih =>
    simp only [stripzeros]
    by_cases hz : stripzeros rest = [] ∧ c = 0
    · simp [hz]
    · rw [if_neg hz]
      exact (List.prefix_cons_inj c).mpr ih

theorem stripzeros_last_ne (l : List Int) (h : stripzeros l ≠ []) :
    coeffAt (stripzeros l) ((stripzeros l).length - 1) ≠ 0 := by
  induction l with
  | nil => simp [stripzeros] at h
  | cons c rest ih =>
    simp only [stripzeros] at h ⊢
    by_cases hz : stripzeros rest = [] ∧ c = 0
    · rw [if_pos hz] at h
      exact absurd rfl h
    · rw [if_neg hz]
      by_cases hr : stripzeros rest = []
      · have hc : c ≠ 0 := fun hc0 => hz ⟨hr, hc0⟩
        simp [hr, coeffAt, hc]
      · have := ih hr
        have hlen : (stripzeros rest).length - 1 + 1 = (stripzeros rest).length :=
          Nat.succ_pred_eq_of_pos (List.length_pos.mpr hr)
        simp only [List.length_cons]
        rw [Nat.add_sub_cancel]
        have hpos : 0 < (stripzeros rest).length := List.length_pos.mpr hr
        have hidx : (stripzeros rest).length = ((stripzeros rest).length - 1) + 1 := by omega
        rw [hidx]
        simpa [coeffAt] using this

theorem stripzeros_idem (l : List Int) : stripzeros (stripzeros l) = stripzeros l := by
  induction l with
  | nil => rfl
  | cons c rest ih =>
    simp only [stripzeros]
    by_cases hz : stripzeros rest = [] ∧ c = 0
    · rw [if_pos hz]
      rfl
    · rw [if_neg hz]
      simp only [stripzeros, ih]
      rw [if_neg hz]

/-- Entries at or beyond the stripped length are zero. -/
theorem coeffAt_eq_zero_of_ge (l : List Int) (i : Nat) (h : (stripzeros l).length ≤ i) :
    coeffAt l i = 0 := by
  rw [← coeffAt_stripzeros]
  simp [coeffAt, List.getD, List.getElem?_eq_none h]

/-- Two trailing-zero-free lists with the same coefficient function are
equal. -/
theorem stripzeros_coeff_ext (u v : List Int) (hu : stripzeros u = u) (hv : stripzeros v = v)
    (h : ∀ i, coeffAt u i = coeffAt v i) : u = v := by
  have hlen : u.length = v.length := by
    by_contra hne
    rcases Nat.lt_or_ge u.length v.length with hlt | hge
    · have hvne : v ≠ [] := by
        intro hv0
        rw [hv0] at hlt
        simp at hlt
      have := stripzeros_last_ne v (by rw [hv]; exact hvne)
      rw [hv] at this
      have h0 : coeffAt u (v.length - 1) = 0 := by
        have : u.length ≤ v.length - 1 := by
          have hvpos : 0 < v.length := List.length_pos.mpr hvne
          omega
        simp [coeffAt, List.getD, List.getElem?_eq_none this]
      rw [h (v.length - 1)] at h0
      exact this h0
    · rcases Nat.lt_or_ge v.length u.length with hlt2 | hge2
      · have hune : u ≠ [] := by
          intro hu0
          rw [hu0] at hlt2
          simp at hlt2
        have := stripzeros_last_ne u (by rw [hu]; exact hune)
        rw [hu] at this
        have h0 : coeffAt v (u.length - 1) = 0 := by
          have : v.length ≤ u.length - 1 := by
            have hupos : 0 < u.length := List.length_pos.mpr hune
            omega
          simp [coeffAt, List.getD, List.getElem?_eq_none this]
        rw [← h (u.length - 1)] at h0
        exact this h0
      · omega
  apply List.ext_getElem hlen
  intro i h1 h2
  have := h i
  simpa [coeffAt, List.getD, List.getElem?_eq_getElem, h1, h2] using this

/-- Stripping an append keeps the left part intact when the right part has a
non-zero entry. -/
theorem stripzeros_append (a b : List Int) (h : stripzeros b ≠ []) :
    stripzeros (a ++ b) = a ++ stripzeros b := by
  induction a with
  | nil => rfl
  | cons c rest ih =>
    have hstep : (c :: rest) ++ b = c :: (rest ++ b) := rfl
    rw [hstep]
    simp only [stripzeros, ih]
    have hne : rest ++ stripzeros b ≠ [] := by
      intro hcon
      exact h (List.append_eq_nil.mp hcon).2
    rw [if_neg (by intro hcon; exact hne hcon.1)]
    rfl

/-! ## Convolution polynomials (`convolution_polynomial.rs`, lines 36-172) -/

/-- A polynomial in `Z[x]/(x^N - 1)`, stored as its coefficient vector
(`coeffs[i]` is the coefficient of `x^i`), exactly as the Rust struct
`ConvPoly { coeffs: Vec<i32> }`.  Structural equality of this structure is
list equality of the coefficient vectors, exactly like the Rust
`#[derive(PartialEq)]`. -/
structure ConvPoly where
  coeffs : List Int
deriving DecidableEq, Repr

/-- Coefficient of `x^i` (zero beyond the stored length). -/
def ConvPoly.coeff (p : ConvPoly) (i : Nat) : Int := coeffAt p.coeffs i

/-- The constant polynomial `f(x) = c` (`ConvPoly::constant`): a one-element
coefficient vector. -/
def ConvPoly.constant (c : Int) : ConvPoly := ⟨[c]⟩

/-- Whether all coefficients are zero (`ConvPoly::is_zero`). -/
def ConvPoly.isZero (p : ConvPoly) : Bool := p.coeffs.all (fun c => c = 0)

/-- Degree (`ConvPoly::deg`): index of the last non-zero coefficient, or `0`
for the zero polynomial (`rposition(..).unwrap_or(0)`). -/
def ConvPoly.deg (p : ConvPoly) : Nat := (stripzeros p.coeffs).length - 1

/-- Leading coefficient (`ConvPoly::lc`): `coeffs[deg]`.  The Rust code
indexes the vector and would panic on an empty vector; we use the defaulted
access, which only differs on that panicking case. -/
def ConvPoly.lc (p : ConvPoly) : Int := coeffAt p.coeffs p.deg

/-- Remove trailing zero coefficients (`ConvPoly::trim`):
`coeffs.truncate(deg + 1)`.  For an all-zero vector `deg` is `0`, so a
non-empty all-zero vector trims to `[0]` and the empty vector stays empty. -/
def ConvPoly.trim (p : ConvPoly) : ConvPoly :=
  if stripzeros p.coeffs = [] then ⟨p.coeffs.take 1⟩ else ⟨stripzeros p.coeffs⟩

/-- Coefficient-wise Euclidean remainder (`ConvPoly::modulo`): `rem_euclid`
on each coefficient, then trim.  The Rust code asserts `m > 0`. -/
def ConvPoly.modulo (p : ConvPoly) (m : Int) : ConvPoly :=
  ConvPoly.trim ⟨p.coeffs.map (fun c => c % m)⟩

/-- Coefficient-wise centered lift (`ConvPoly::center_lift`), then trim. -/
def ConvPoly.center_lift (p : ConvPoly) (m : Int) : ConvPoly :=
  ConvPoly.trim ⟨p.coeffs.map (fun c => intCenterLift c m)⟩

/-- Pointwise sum of two coefficient vectors of possibly different lengths
(`ConvPoly::add`), then trim. -/
def ConvPoly.add (p q : ConvPoly) : ConvPoly :=
  ConvPoly.trim
    ⟨(List.range (max p.coeffs.length q.coeffs.length)).map
      (fun i => coeffAt p.coeffs i + coeffAt q.coeffs i)⟩

/-- Pointwise difference (`ConvPoly::sub`), then trim. -/
def ConvPoly.sub (p q : ConvPoly) : ConvPoly :=
  ConvPoly.trim
    ⟨(List.range (max p.coeffs.length q.coeffs.length)).map
      (fun i => coeffAt p.coeffs i - coeffAt q.coeffs i)⟩

/-- Cyclic convolution product in `Z[x]/(x^n - 1)` (`ConvPoly::mul`).  The
Rust code allocates `vec![0; n]` and accumulates
`coeffs[i] * coeffs[j]` into slot `(i + j) % n` for `i ≤ deg p`,
`j ≤ deg q`; slot `k` of the result therefore holds exactly the sum below.
Zero operands short-circuit to the constant zero polynomial. -/
def ConvPoly.mul (p q : ConvPoly) (n : Nat) : ConvPoly :=
  if p.isZero || q.isZero then ConvPoly.constant 0
  else
    ConvPoly.trim
      ⟨(List.range n).map
        (fun k =>
          Finset.sum (Finset.range (p.deg + 1) ×ˢ Finset.range (q.deg + 1))
            (fun ij =>
              if (ij.1 + ij.2) % n = k then p.coeff ij.1 * q.coeff ij.2 else 0))⟩

/-! ### Basic coefficient lemmas -/

theorem ConvPoly.coeff_trim (p : ConvPoly) (i : Nat) : p.trim.coeff i = p.coeff i := by
  unfold ConvPoly.trim ConvPoly.coeff
  by_cases hz : stripzeros p.coeffs = []
  · simp only [hz, if_pos]
    have hall : ∀ c ∈ p.coeffs, c = 0 := (stripzeros_eq_nil_iff _).mp hz
    have htake : ∀ c ∈ p.coeffs.take 1, c = 0 := fun c hc => hall c (List.mem_of_mem_take hc)
    rw [coeffAt_of_all_zero _ hall i, coeffAt_of_all_zero _ htake i]
  · simp only [hz, if_neg, not_false_iff]
    exact coeffAt_stripzeros p.coeffs i

theorem all_zero_of_coeffAt (l : List Int) (h : ∀ i, coeffAt l i = 0) : ∀ c ∈ l, c = 0 := by
  induction l with
  | nil => intro c hc; simp at hc
  | cons a rest ih =>
    intro c hc
    rcases List.mem_cons.mp hc with h1 | h2
    · rw [h1]
      exact h 0
    · exact ih (fun i => h (i + 1)) c h2

theorem ConvPoly.isZero_iff (p : ConvPoly) : p.isZero = true ↔ ∀ i, p.coeff i = 0 := by
  unfold ConvPoly.isZero ConvPoly.coeff
  rw [List.all_eq_true]
  constructor
  · intro h i
    exact coeffAt_of_all_zero _ (fun c hc => by exact_mod_cast (decide_eq_true_eq.mp (h c hc))) i
  · intro h c hc
    have := all_zero_of_coeffAt p.coeffs h c hc
    simp [this]

theorem ConvPoly.not_isZero_iff (p : ConvPoly) :
    ¬ p.isZero = true ↔ stripzeros p.coeffs ≠ [] := by
  rw [ConvPoly.isZero_iff]
  constructor
  · intro h hz
    exact h (fun i => coeffAt_of_all_zero _ ((stripzeros_eq_nil_iff _).mp hz) i)
  · intro h hall
    apply h
    rw [stripzeros_eq_nil_iff]
    exact all_zero_of_coeffAt p.coeffs hall

/-- Coefficients above the degree vanish. -/
theorem ConvPoly.coeff_eq_zero_of_deg_lt (p : ConvPoly) (i : Nat) (h : p.deg < i) :
    p.coeff i = 0 := by
  unfold ConvPoly.coeff
  apply coeffAt_eq_zero_of_ge
  unfold ConvPoly.deg at h
  omega

/-- A non-zero polynomial has a non-zero coefficient at its degree. -/
theorem ConvPoly.coeff_deg_ne_zero (p : ConvPoly) (h : ¬ p.isZero = true) :
    p.coeff p.deg ≠ 0 := by
  have hne := (ConvPoly.not_isZero_iff p).mp h
  have := stripzeros_last_ne p.coeffs hne
  unfold ConvPoly.coeff ConvPoly.deg
  rw [← coeffAt_stripzeros]
  exact this

theorem coeffAt_len_le (l : List Int) (i : Nat) (h : l.length ≤ i) : coeffAt l i = 0 := by
  unfold coeffAt
  exact List.getD_eq_default _ _ h

theorem coeffAt_range_map (n : Nat) (f : Nat → Int) (i : Nat) :
    coeffAt ((List.range n).map f) i = if i < n then f i else 0 := by
  by_cases h : i < n
  · rw [if_pos h]
    unfold coeffAt
    rw [List.getD_eq_getElem _ _ (by simpa using h)]
    simp
  · rw [if_neg h]
    exact coeffAt_len_le _ _ (by simpa using Nat.le_of_not_lt h)

theorem coeffAt_map_zero (f : Int → Int) (hf : f 0 = 0) (l : List Int) (i : Nat) :
    coeffAt (l.map f) i = f (coeffAt l i) := by
  by_cases h : i < l.length
  · unfold coeffAt
    rw [List.getD_eq_getElem _ _ (by simpa using h), List.getD_eq_getElem _ _ h]
    simp
  · rw [coeffAt_len_le _ _ (by simpa using Nat.le_of_not_lt h),
      coeffAt_len_le _ _ (Nat.le_of_not_lt h), hf]

theorem ConvPoly.trim_length_le (p : ConvPoly) : p.trim.coeffs.length ≤ p.coeffs.length := by
  unfold ConvPoly.trim
  by_cases hz : stripzeros p.coeffs = []
  · simp only [hz, if_pos]
    simp [List.length_take]
  · simp only [hz, if_neg, not_false_iff]
    exact stripzeros_length_le p.coeffs

theorem ConvPoly.coeff_constant (c : Int) (i : Nat) :
    (ConvPoly.constant c).coeff i = if i = 0 then c else 0 := by
  cases i with
  | zero => rfl
  | succ j =>
    simp only [Nat.succ_ne_zero, if_neg, not_false_iff]
    rfl

theorem ConvPoly.coeff_modulo (p : ConvPoly) (m : Int) (i : Nat) :
    (p.modulo m).coeff i = p.coeff i % m := by
  unfold ConvPoly.modulo
  rw [ConvPoly.coeff_trim]
  unfold ConvPoly.coeff
  exact coeffAt_map_zero _ (Int.zero_emod m) _ i

theorem ConvPoly.coeff_center_lift (p : ConvPoly) (m : Int) (hm : 0 < m) (i : Nat) :
    (p.center_lift m).coeff i = intCenterLift (p.coeff i) m := by
  unfold ConvPoly.center_lift
  rw [ConvPoly.coeff_trim]
  unfold ConvPoly.coeff
  refine coeffAt_map_zero _ ?_ _ i
  unfold intCenterLift
  have h0 : (0 : Int) % m = 0 := Int.zero_emod m
  rw [h0]
  have : (0 : Int) ≤ m / 2 := Int.ediv_nonneg (by omega) (by omega)
  simp [this]

theorem ConvPoly.coeff_add (p q : ConvPoly) (i : Nat) :
    (p.add q).coeff i = p.coeff i + q.coeff i := by
  unfold ConvPoly.add
  rw [ConvPoly.coeff_trim]
  show coeffAt _ i = _
  rw [coeffAt_range_map]
  by_cases h : i < max p.coeffs.length q.coeffs.length
  · rw [if_pos h]
    rfl
  · rw [if_neg h]
    unfold ConvPoly.coeff
    rw [coeffAt_len_le _ _ (by omega), coeffAt_len_le _ _ (by omega)]
    ring

theorem ConvPoly.coeff_sub (p q : ConvPoly) (i : Nat) :
    (p.sub q).coeff i = p.coeff i - q.coeff i := by
  unfold ConvPoly.sub
  rw [ConvPoly.coeff_trim]
  show coeffAt _ i = _
  rw [coeffAt_range_map]
  by_cases h : i < max p.coeffs.length q.coeffs.length
  · rw [if_pos h]
    rfl
  · rw [if_neg h]
    unfold ConvPoly.coeff
    rw [coeffAt_len_le _ _ (by omega), coeffAt_len_le _ _ (by omega)]
    ring

theorem ConvPoly.length_add_le (p q : ConvPoly) :
    (p.add q).coeffs.length ≤ max p.coeffs.length q.coeffs.length := by
  unfold ConvPoly.add
  exact le_trans (ConvPoly.trim_length_le _) (by simp)

theorem ConvPoly.length_sub_le (p q : ConvPoly) :
    (p.sub q).coeffs.length ≤ max p.coeffs.length q.coeffs.length := by
  unfold ConvPoly.sub
  exact le_trans (ConvPoly.trim_length_le _) (by simp)

theorem ConvPoly.length_modulo_le (p : ConvPoly) (m : Int) :
    (p.modulo m).coeffs.length ≤ p.coeffs.length := by
  unfold ConvPoly.modulo
  exact le_trans (ConvPoly.trim_length_le _) (by simp)

theorem ConvPoly.length_center_lift_le (p : ConvPoly) (m : Int) :
    (p.center_lift m).coeffs.length ≤ p.coeffs.length := by
  unfold ConvPoly.center_lift
  exact le_trans (ConvPoly.trim_length_le _) (by simp)

theorem ConvPoly.length_mul_le (p q : ConvPoly) (n : Nat) (hn : 0 < n) :
    (p.mul q n).coeffs.length ≤ n := by
  unfold ConvPoly.mul
  by_cases hz : p.isZero || q.isZero
  · simp only [hz, if_pos]
    simpa [ConvPoly.constant] using hn
  · simp only [hz, if_neg, not_false_iff]
    exact le_trans (ConvPoly.trim_length_le _) (by simp)

/-! ## Cyclic convolution semantics

`cconv n f g` is the coefficient function of the product of two support-
bounded coefficient functions in `Z[x]/(x^n - 1)`. -/

/-- Cyclic convolution of two coefficient functions, ring size `n`. -/
def cconv (n : Nat) (f g : Nat → Int) (k : Nat) : Int :=
  Finset.sum (Finset.range n ×ˢ Finset.range n)
    (fun ij => if (ij.1 + ij.2) % n = k then f ij.1 * g ij.2 else 0)

theorem cconv_eq_zero_of_ge (n : Nat) (f g : Nat → Int) (k : Nat) (hn : 0 < n) (hk : n ≤ k) :
    cconv n f g k = 0 := by
  unfold cconv
  apply Finset.sum_eq_zero
  intro ij _
  have : (ij.1 + ij.2) % n < n := Nat.mod_lt _ hn
  rw [if_neg (by omega)]

/-- The product coefficient computed by `ConvPoly.mul` is the cyclic
convolution of the coefficient functions, for operands supported inside the
ring. -/
theorem ConvPoly.coeff_mul (p q : ConvPoly) (n : Nat) (hn : 0 < n)
    (hp : p.coeffs.length ≤ n) (hq : q.coeffs.length ≤ n) (k : Nat) :
    (p.mul q n).coeff k = cconv n p.coeff q.coeff k := by
  unfold ConvPoly.mul
  by_cases hz : (p.isZero || q.isZero) = true
  · rw [if_pos hz]
    have hzero : cconv n p.coeff q.coeff k = 0 := by
      unfold cconv
      apply Finset.sum_eq_zero
      intro ij _
      rcases (Bool.or_eq_true _ _).mp hz with hp0 | hq0
      · rw [(ConvPoly.isZero_iff p).mp hp0 ij.1, zero_mul, ite_self]
      · rw [(ConvPoly.isZero_iff q).mp hq0 ij.2, mul_zero, ite_self]
    rw [hzero, ConvPoly.coeff_constant]
    simp
  · rw [if_neg hz]
    rw [ConvPoly.coeff_trim]
    show coeffAt _ k = _
    rw [coeffAt_range_map]
    have hpz : ¬ p.isZero = true := by
      intro hc
      apply hz
      rw [Bool.or_eq_true]
      exact Or.inl hc
    have hqz : ¬ q.isZero = true := by
      intro hc
      apply hz
      rw [Bool.or_eq_true]
      exact Or.inr hc
    have hpne : p.coeffs ≠ [] := by
      intro hc
      apply hpz
      unfold ConvPoly.isZero
      rw [hc]
      rfl
    have hqne : q.coeffs ≠ [] := by
      intro hc
      apply hqz
      unfold ConvPoly.isZero
      rw [hc]
      rfl
    have hdp : p.deg + 1 ≤ n := by
      have h1 : (stripzeros p.coeffs).length ≤ p.coeffs.length := stripzeros_length_le _
      have h2 : 0 < p.coeffs.length := List.length_pos.mpr hpne
      unfold ConvPoly.deg
      omega
    have hdq : q.deg + 1 ≤ n := by
      have h1 : (stripzeros q.coeffs).length ≤ q.coeffs.length := stripzeros_length_le _
      have h2 : 0 < q.coeffs.length := List.length_pos.mpr hqne
      unfold ConvPoly.deg
      omega
    by_cases hk : k < n
    · rw [if_pos hk]
      unfold cconv
      apply Finset.sum_subset
      · intro ij hij
        rw [Finset.mem_product] at hij
        rw [Finset.mem_product]
        have h1 := Finset.mem_range.mp hij.1
        have h2 := Finset.mem_range.mp hij.2
        exact ⟨Finset.mem_range.mpr (by omega), Finset.mem_range.mpr (by omega)⟩
      · intro ij _ hnot
        rw [Finset.mem_product, Finset.mem_range, Finset.mem_range] at hnot
        by_cases hi : ij.1 < p.deg + 1
        · have hj : ¬ ij.2 < q.deg + 1 := fun hc => hnot ⟨hi, hc⟩
          rw [ConvPoly.coeff_eq_zero_of_deg_lt q ij.2 (by omega), mul_zero, ite_self]
        · rw [ConvPoly.coeff_eq_zero_of_deg_lt p ij.1 (by omega), zero_mul, ite_self]
    · rw [if_neg hk]
      rw [cconv_eq_zero_of_ge n _ _ k hn (Nat.le_of_not_lt hk)]

/-! ### Algebra of the cyclic convolution -/

theorem cconv_comm (n : Nat) (f g : Nat → Int) (k : Nat) :
    cconv n f g k = cconv n g f k := by
  unfold cconv
  rw [Finset.sum_product, Finset.sum_product, Finset.sum_comm]
  apply Finset.sum_congr rfl
  intro a _
  apply Finset.sum_congr rfl
  intro b _
  rw [Nat.add_comm b a, mul_comm]

theorem cconv_add_right (n : Nat) (f g h : Nat → Int) (k : Nat) :
    cconv n f (fun i => g i + h i) k = cconv n f g k + cconv n f h k := by
  unfold cconv
  rw [← Finset.sum_add_distrib]
  apply Finset.sum_congr rfl
  intro ij _
  by_cases hc : (ij.1 + ij.2) % n = k
  · rw [if_pos hc, if_pos hc, if_pos hc]
    ring
  · rw [if_neg hc, if_neg hc, if_neg hc]
    ring

theorem cconv_smul_left (n : Nat) (c : Int) (f g : Nat → Int) (k : Nat) :
    cconv n (fun i => c * f i) g k = c * cconv n f g k := by
  unfold cconv
  rw [Finset.mul_sum]
  apply Finset.sum_congr rfl
  intro ij _
  by_cases hc : (ij.1 + ij.2) % n = k
  · rw [if_pos hc, if_pos hc]
    ring
  · rw [if_neg hc, if_neg hc]
    ring

/-- Congruence mod `m` of two finite sums of pointwise congruent terms. -/
theorem modEq_finset_sum {α : Type} (m : Int) (s : Finset α) (f g : α → Int) :
    (∀ x ∈ s, f x ≡ g x [ZMOD m]) → Finset.sum s f ≡ Finset.sum s g [ZMOD m] := by
  classical
  induction s using Finset.induction_on with
  | empty => intro _; simp
  | insert hnotmem ih =>
    intro h
    rw [Finset.sum_insert hnotmem, Finset.sum_insert hnotmem]
    refine Int.ModEq.add (h _ (Finset.mem_insert_self _ _)) (ih ?_)
    intro x hx
    exact h x (Finset.mem_insert_of_mem hx)

/-- Pointwise congruence mod `m` is preserved by the convolution. -/
theorem cconv_congr (n : Nat) (m : Int) (f f' g g' : Nat → Int)
    (hf : ∀ i, f i ≡ f' i [ZMOD m]) (hg : ∀ j, g j ≡ g' j [ZMOD m]) (k : Nat) :
    cconv n f g k ≡ cconv n f' g' k [ZMOD m] := by
  unfold cconv
  apply modEq_finset_sum
  intro ij _
  by_cases hc : (ij.1 + ij.2) % n = k
  · rw [if_pos hc, if_pos hc]
    exact (hf ij.1).mul (hg ij.2)
  · rw [if_neg hc, if_neg hc]


theorem ite_sum_zero {β : Type} {P : Prop} [Decidable P] (s : Finset β) (F : β → Int) :
    (if P then Finset.sum s F else 0) = Finset.sum s (fun x => if P then F x else 0) := by
  by_cases hP : P
  · simp [hP]
  · simp [hP]

/-- Collapse a sum over `u < n` of terms that vanish except at `u = u0`. -/
theorem sumIteCollapse (n u0 : Nat) (hu0 : u0 < n) (P : Nat → Prop) [DecidablePred P] (c : Int) :
    Finset.sum (Finset.range n) (fun u => if P u then (if u0 = u then c else 0) else 0) =
      (if P u0 then c else 0) := by
  rw [Finset.sum_eq_single_of_mem u0 (Finset.mem_range.mpr hu0)]
  · simp
  · intro u _ hne
    by_cases hP : P u
    · rw [if_pos hP, if_neg (fun hc => hne (Eq.symm hc))]
    · rw [if_neg hP]

/-- Iterated-sum form of the cyclic convolution. -/
theorem cconv_eq_double (n : Nat) (f g : Nat → Int) (k : Nat) :
    cconv n f g k =
      Finset.sum (Finset.range n) (fun i =>
        Finset.sum (Finset.range n) (fun j =>
          if (i + j) % n = k then f i * g j else 0)) := by
  unfold cconv
  rw [Finset.sum_product]

/-- The triple convolution, reference form for associativity. -/
def cconv3 (n : Nat) (f g h : Nat → Int) (k : Nat) : Int :=
  Finset.sum (Finset.range n) (fun i =>
    Finset.sum (Finset.range n) (fun j =>
      Finset.sum (Finset.range n) (fun l =>
        if (i + j + l) % n = k then f i * g j * h l else 0)))

theorem cconv_cconv_left (n : Nat) (hn : 0 < n) (f g h : Nat → Int) (k : Nat) :
    cconv n (cconv n f g) h k = cconv3 n f g h k := by
  rw [cconv_eq_double]
  unfold cconv3
  have expand : ∀ u ∈ Finset.range n,
      Finset.sum (Finset.range n)
        (fun l => if (u + l) % n = k then cconv n f g u * h l else 0) =
      Finset.sum (Finset.range n) (fun l =>
        Finset.sum (Finset.range n) (fun i =>
          Finset.sum (Finset.range n) (fun j =>
            if (u + l) % n = k then (if (i + j) % n = u then f i * g j * h l else 0) else 0))) := by
    intro u _
    apply Finset.sum_congr rfl
    intro l _
    rw [cconv_eq_double, Finset.sum_mul, ite_sum_zero]
    apply Finset.sum_congr rfl
    intro i _
    rw [Finset.sum_mul, ite_sum_zero]
    apply Finset.sum_congr rfl
    intro j _
    rw [ite_mul, zero_mul]
  rw [Finset.sum_congr rfl expand, Finset.sum_comm]
  have collapse : ∀ l ∈ Finset.range n,
      Finset.sum (Finset.range n) (fun u =>
        Finset.sum (Finset.range n) (fun i =>
          Finset.sum (Finset.range n) (fun j =>
            if (u + l) % n = k then (if (i + j) % n = u then f i * g j * h l else 0) else 0))) =
      Finset.sum (Finset.range n) (fun i =>
        Finset.sum (Finset.range n) (fun j =>
          if (i + j + l) % n = k then f i * g j * h l else 0)) := by
    intro l _
    rw [Finset.sum_comm]
    apply Finset.sum_congr rfl
    intro i _
    rw [Finset.sum_comm]
    apply Finset.sum_congr rfl
    intro j _
    rw [sumIteCollapse n ((i + j) % n) (Nat.mod_lt _ hn) (fun u => (u + l) % n = k)
      (f i * g j * h l)]
    rw [Nat.mod_add_mod]
  rw [Finset.sum_congr rfl collapse, Finset.sum_comm]
  apply Finset.sum_congr rfl
  intro i _
  rw [Finset.sum_comm]

theorem cconv_cconv_right (n : Nat) (hn : 0 < n) (f g h : Nat → Int) (k : Nat) :
    cconv n f (cconv n g h) k = cconv3 n f g h k := by
  rw [cconv_eq_double]
  unfold cconv3
  have expand : ∀ i ∈ Finset.range n,
      Finset.sum (Finset.range n)
        (fun u => if (i + u) % n = k then f i * cconv n g h u else 0) =
      Finset.sum (Finset.range n) (fun u =>
        Finset.sum (Finset.range n) (fun j =>
          Finset.sum (Finset.range n) (fun l =>
            if (i + u) % n = k then (if (j + l) % n = u then f i * g j * h l else 0) else 0))) := by
    intro i _
    apply Finset.sum_congr rfl
    intro u _
    rw [cconv_eq_double, Finset.mul_sum, ite_sum_zero]
    apply Finset.sum_congr rfl
    intro j _
    rw [Finset.mul_sum, ite_sum_zero]
    apply Finset.sum_congr rfl
    intro l _
    rw [mul_ite, mul_zero, ← mul_assoc]
  rw [Finset.sum_congr rfl expand]
  apply Finset.sum_congr rfl
  intro i _
  rw [Finset.sum_comm]
  apply Finset.sum_congr rfl
  intro j _
  rw [Finset.sum_comm]
  apply Finset.sum_congr rfl
  intro l _
  rw [sumIteCollapse n ((j + l) % n) (Nat.mod_lt _ hn) (fun u => (i + u) % n = k)
    (f i * g j * h l)]
  rw [Nat.add_mod_mod, ← Nat.add_assoc]

/-- Associativity of the cyclic convolution. -/
theorem cconv_assoc (n : Nat) (hn : 0 < n) (f g h : Nat → Int) (k : Nat) :
    cconv n (cconv n f g) h k = cconv n f (cconv n g h) k := by
  rw [cconv_cconv_left n hn, cconv_cconv_right n hn]

/-- Convolving with the coefficient function of a constant polynomial scales
pointwise (for functions supported inside the ring). -/
theorem cconv_const (n : Nat) (hn : 0 < n) (c : Int) (g : Nat → Int)
    (hg : ∀ j, n ≤ j → g j = 0) (k : Nat) :
    cconv n (fun i => if i = 0 then c else 0) g k = c * g k := by
  by_cases hk : k < n
  · rw [cconv_eq_double]
    rw [Finset.sum_eq_single_of_mem 0 (Finset.mem_range.mpr hn)]
    · have hstep : ∀ j ∈ Finset.range n,
          (if (0 + j) % n = k then (if (0 : Nat) = 0 then c else 0) * g j else 0) =
          (if j = k then c * g j else 0) := by
        intro j hj
        have hjlt := Finset.mem_range.mp hj
        rw [Nat.zero_add, Nat.mod_eq_of_lt hjlt, if_pos rfl]
      rw [Finset.sum_congr rfl hstep, Finset.sum_ite_eq' (Finset.range n) k (fun j => c * g j),
        if_pos (Finset.mem_range.mpr hk)]
    · intro i _ hne
      apply Finset.sum_eq_zero
      intro j _
      rw [if_neg hne, zero_mul, ite_self]
  · rw [cconv_eq_zero_of_ge n _ _ k hn (Nat.le_of_not_lt hk), hg k (Nat.le_of_not_lt hk),
      mul_zero]

theorem ConvPoly.coeff_constant_fun (c : Int) :
    (ConvPoly.constant c).coeff = fun i => if i = 0 then c else 0 :=
  funext (ConvPoly.coeff_constant c)

/-- Coefficients vanish at or beyond the stored length. -/
theorem ConvPoly.coeff_eq_zero_of_len_le (p : ConvPoly) (n : Nat) (hp : p.coeffs.length ≤ n) :
    ∀ j, n ≤ j → p.coeff j = 0 := by
  intro j hj
  exact coeffAt_len_le _ _ (le_trans hp hj)

/-- Multiplying by a constant polynomial on the left scales coefficients. -/
theorem ConvPoly.coeff_constant_mul (c : Int) (q : ConvPoly) (n : Nat) (hn : 0 < n)
    (hq : q.coeffs.length ≤ n) (k : Nat) :
    ((ConvPoly.constant c).mul q n).coeff k = c * q.coeff k := by
  rw [ConvPoly.coeff_mul _ _ n hn (by simpa [ConvPoly.constant] using hn) hq k,
    ConvPoly.coeff_constant_fun]
  exact cconv_const n hn c q.coeff (ConvPoly.coeff_eq_zero_of_len_le q n hq) k

/-! ## Message byte codec (`ntru_util.rs`) -/

/-- Digit loop of `ternary`: while `c > 0`, emit `c % 3` (with `2` recorded
as `-1`) and divide `c` by `3`; `push_front` accumulation means the digits
end up most-significant first, which is the `++ [digit]` below.  Note the
Rust code performs no carry when it records `2` as `-1`.  Structural
recursion on a fuel counter (the value itself bounds the iteration count,
since `c` strictly decreases; `tdigitsAux_fuel_stable` makes this
independence precise), so the definition evaluates by kernel reduction. -/
def tdigitsAux : Nat → Nat → List Int
  | 0, _ => []
  | fuel + 1, c =>
    if c = 0 then []
    else tdigitsAux fuel (c / 3) ++ [if c % 3 = 2 then -1 else (c % 3 : Int)]

theorem tdigitsAux_fuel_stable :
    ∀ fuel fuel' c : Nat, c ≤ fuel → c ≤ fuel' →
      tdigitsAux fuel c = tdigitsAux fuel' c := by
  intro fuel
  induction fuel with
  | zero =>
    intro fuel' c hc _
    have : c = 0 := by omega
    cases fuel' with
    | zero => rfl
    | succ f' => simp [tdigitsAux, this]
  | succ f ih =>
    intro fuel' c hc hc'
    cases fuel' with
    | zero =>
      have : c = 0 := by omega
      simp [tdigitsAux, this]
    | succ f' =>
      by_cases hz : c = 0
      · simp [tdigitsAux, hz]
      · simp only [tdigitsAux, hz, if_neg, not_false_iff]
        have h3 : c / 3 < c := Nat.div_lt_self (Nat.pos_of_ne_zero hz) (by omega)
        rw [ih f' (c / 3) (by omega) (by omega)]

/-- The digit list of `c` (most-significant first). -/
def tdigits (c : Nat) : List Int := tdigitsAux c c

/-- `ternary` from `ntru_util.rs`: the 5-digit chunk for one byte.  The Rust
code asserts `0 ≤ c < 242`; theorems below carry that range hypothesis. -/
def ternary (c : Nat) : List Int :=
  if c = 0 then List.replicate 5 0
  else List.replicate (5 - (tdigits c).length) 0 ++ tdigits c

/-- `serialize` digit accumulation: the coefficient vector is the
concatenation of the per-byte chunks, in message order. -/
def serializeDigits : List Nat → List Int
  | [] => []
  | b :: rest => ternary b ++ serializeDigits rest

/-- `serialize` from `ntru_util.rs`: bytes to plaintext polynomial.  The
Rust code asserts `5 * msg.len() ≤ N` as a precondition. -/
def serialize (msg : List Nat) : ConvPoly := ⟨serializeDigits msg⟩

/-- `bal_tern_esc` from `ntru_util.rs`: positional value of one digit, with
`-1` interpreted as the base-3 digit `2`. -/
def bal_tern_esc (n : Int) (i : Nat) : Int :=
  if n = -1 then 2 * 3 ^ i else n * 3 ^ i

/-- `out_of_ternary` from `ntru_util.rs`: decode one chunk (padded or
truncated to 5 entries) to a byte; `none` both for the all-zero length-5
chunk (end of message) and for values outside `u8` range. -/
def out_of_ternary (ser_ch : List Int) : Option Nat :=
  if ser_ch = List.replicate 5 0 then none
  else
    if 0 ≤ chunkValue ser_ch ∧ chunkValue ser_ch ≤ 255 then some (chunkValue ser_ch).toNat
    else none
where
  /-- The accumulated `ans` of `out_of_ternary`, on the chunk padded with
  zeros to length 5 (and truncated to 5). -/
  chunkValue (ser_ch : List Int) : Int :=
    bal_tern_esc (coeffAt ((ser_ch ++ List.replicate 5 0).take 5) 4) 0 +
    bal_tern_esc (coeffAt ((ser_ch ++ List.replicate 5 0).take 5) 3) 1 +
    bal_tern_esc (coeffAt ((ser_ch ++ List.replicate 5 0).take 5) 2) 2 +
    bal_tern_esc (coeffAt ((ser_ch ++ List.replicate 5 0).take 5) 1) 3 +
    bal_tern_esc (coeffAt ((ser_ch ++ List.replicate 5 0).take 5) 0) 4

/-- `coeffs.chunks(5)`: split into chunks of 5, last chunk possibly
shorter. -/
def chunks5 : List Int → List (List Int)
  | [] => []
  | a :: b :: c :: d :: e :: rest => [a, b, c, d, e] :: chunks5 rest
  | l => [l]

/-- `deserialize` from `ntru_util.rs`: decode each 5-chunk, dropping the
chunks that decode to `None`. -/
def deserialize (p : ConvPoly) : List Nat :=
  (chunks5 p.coeffs).filterMap out_of_ternary

/-! ### Per-byte facts about the codec, established by evaluation -/

set_option maxRecDepth 100000 in
theorem ternary_length_all : ∀ b : Nat, b < 242 → (ternary b).length = 5 := by decide

set_option maxRecDepth 100000 in
theorem out_of_ternary_ternary_all :
    ∀ b : Nat, b < 242 → out_of_ternary (ternary b) = if b = 0 then none else some b := by decide

set_option maxRecDepth 100000 in
/-- Decoding also succeeds on the mod-3 image of a chunk (digit `-1`
reduced to `2`), which is exactly what NTRU decryption hands to
`deserialize`. -/
theorem out_of_ternary_ternary_mod3_all :
    ∀ b : Nat, b < 242 → 0 < b →
      out_of_ternary ((ternary b).map (fun d => d % 3)) = some b := by decide

set_option maxRecDepth 100000 in
/-- The mod-3 image of a non-zero byte chunk contains a non-zero digit. -/
theorem ternary_mod3_ne_zero_all :
    ∀ b : Nat, b < 242 → 0 < b →
      ((ternary b).map (fun d => d % 3)).any (fun d => decide (d ≠ 0)) = true := by decide

set_option maxRecDepth 100000 in
/-- Decoding the trimmed mod-3 image of a final chunk still recovers the
byte: trailing zero digits removed by `trim` are re-padded by
`out_of_ternary`. -/
theorem chunks_strip_mod3_all :
    ∀ b : Nat, b < 242 → 0 < b →
      (chunks5 (stripzeros ((ternary b).map (fun d => d % 3)))).filterMap out_of_ternary =
        [b] := by decide

/-! ### Codec round-trip lemmas -/

theorem stripzeros_congr (u v : List Int) (h : ∀ i, coeffAt u i = coeffAt v i) :
    stripzeros u = stripzeros v := by
  refine stripzeros_coeff_ext _ _ (stripzeros_idem u) (stripzeros_idem v) ?_
  intro i
  rw [coeffAt_stripzeros, coeffAt_stripzeros]
  exact h i

theorem ConvPoly.trim_eq_strip (l : List Int) (h : stripzeros l ≠ []) :
    (ConvPoly.trim ⟨l⟩).coeffs = stripzeros l := by
  unfold ConvPoly.trim
  rw [if_neg h]

theorem chunks5_append5 (c X : List Int) (h : c.length = 5) :
    chunks5 (c ++ X) = c :: chunks5 X := by
  cases c with
  | nil => simp at h
  | cons a t1 =>
    cases t1 with
    | nil => simp at h
    | cons b t2 =>
      cases t2 with
      | nil => simp at h
      | cons c' t3 =>
        cases t3 with
        | nil => simp at h
        | cons d t4 =>
          cases t4 with
          | nil => simp at h
          | cons e t5 =>
            cases t5 with
            | nil => rfl
            | cons f t6 => simp at h

theorem serializeDigits_length (msg : List Nat) (h : ∀ b ∈ msg, b < 242) :
    (serializeDigits msg).length = 5 * msg.length := by
  induction msg with
  | nil => rfl
  | cons b rest ih =>
    show (ternary b ++ serializeDigits rest).length = 5 * (rest.length + 1)
    rw [List.length_append, ternary_length_all b (h b (List.mem_cons_self _ _)),
      ih (fun x hx => h x (List.mem_cons_of_mem _ hx))]
    ring

/-- Round trip of the byte codec for messages whose bytes are non-zero and
below 242. -/
theorem deserialize_serialize (msg : List Nat) (h : ∀ b ∈ msg, 0 < b ∧ b < 242) :
    deserialize (serialize msg) = msg := by
  unfold deserialize serialize
  induction msg with
  | nil => rfl
  | cons b rest ih =>
    have hb := h b (List.mem_cons_self _ _)
    have hrest : ∀ x ∈ rest, 0 < x ∧ x < 242 := fun x hx => h x (List.mem_cons_of_mem _ hx)
    show (chunks5 (ternary b ++ serializeDigits rest)).filterMap out_of_ternary = b :: rest
    rw [chunks5_append5 _ _ (ternary_length_all b hb.2), List.filterMap_cons]
    rw [out_of_ternary_ternary_all b hb.2, if_neg (by omega : ¬ b = 0)]
    rw [ih hrest]

theorem strip_serializeDigits_mod3_ne_nil (msg : List Nat) (hne : msg ≠ [])
    (h : ∀ b ∈ msg, 0 < b ∧ b < 242) :
    stripzeros ((serializeDigits msg).map (fun d => d % 3)) ≠ [] := by
  cases msg with
  | nil => exact absurd rfl hne
  | cons b rest =>
    intro hcon
    rw [stripzeros_eq_nil_iff] at hcon
    have hb := h b (List.mem_cons_self _ _)
    have hany := ternary_mod3_ne_zero_all b hb.2 hb.1
    rw [List.any_eq_true] at hany
    obtain ⟨d, hd, hdne⟩ := hany
    have hdne' : d ≠ 0 := of_decide_eq_true hdne
    apply hdne'
    apply hcon
    show d ∈ (ternary b ++ serializeDigits rest).map (fun d => d % 3)
    rw [List.map_append]
    exact List.mem_append_left _ hd

/-- Decoding the trimmed mod-3 image of a serialized message recovers the
message, for non-empty messages of non-zero bytes below 242.  This is the
list-level core of NTRU decryption correctness: decryption hands
`deserialize` exactly the trimmed mod-3 image of the plaintext digit
vector. -/
theorem deserialize_strip_mod3 (msg : List Nat) (hne : msg ≠ [])
    (h : ∀ b ∈ msg, 0 < b ∧ b < 242) :
    (chunks5 (stripzeros ((serializeDigits msg).map (fun d => d % 3)))).filterMap
      out_of_ternary = msg := by
  induction msg with
  | nil => exact absurd rfl hne
  | cons b rest ih =>
    have hb := h b (List.mem_cons_self _ _)
    have hrest : ∀ x ∈ rest, 0 < x ∧ x < 242 := fun x hx => h x (List.mem_cons_of_mem _ hx)
    by_cases hr : rest = []
    · rw [hr]
      show (chunks5 (stripzeros ((ternary b ++ serializeDigits []).map (fun d => d % 3)))).filterMap
        out_of_ternary = [b]
      rw [show serializeDigits [] = [] from rfl, List.append_nil]
      exact chunks_strip_mod3_all b hb.2 hb.1
    · show (chunks5 (stripzeros ((ternary b ++ serializeDigits rest).map (fun d => d % 3)))).filterMap
        out_of_ternary = b :: rest
      rw [List.map_append]
      rw [stripzeros_append _ _ (strip_serializeDigits_mod3_ne_nil rest hr hrest)]
      have hlen : ((ternary b).map (fun d => d % 3)).length = 5 := by
        rw [List.length_map]
        exact ternary_length_all b hb.2
      rw [chunks5_append5 _ _ hlen, List.filterMap_cons,
        out_of_ternary_ternary_mod3_all b hb.2 hb.1, ih hr hrest]

/-! ## NTRU engine (`ntru_key.rs`)

The scheme parameters `(N, p, q, d)` are build-time constants in the Rust
crate (`N = 503`, `p = 3`, `q = 419`, `d = 23`); the embedding takes them as
arguments so theorems quantify over the build-time choice, and the
reference values are fixed below. -/

def ntruN : Nat := 503

def ntruP : Int := 3

def ntruQ : Int := 419

def ntruD : Nat := 23

/-- An NTRU private key `(f, f_p, f_q, g)` as in `NtruPrivateKey`. -/
structure NtruPrivateKey where
  f : ConvPoly
  f_p : ConvPoly
  f_q : ConvPoly
  g : ConvPoly

/-- An NTRU public key, the polynomial `h`. -/
structure NtruPublicKey where
  h : ConvPoly
deriving DecidableEq

/-- `NtruPublicKey::new`: `h = f_q * g` in ring size `N` (the code applies
no reduction mod `q` here). -/
def NtruPublicKey.ofPrivate (n : Nat) (k : NtruPrivateKey) : NtruPublicKey :=
  ⟨k.f_q.mul k.g n⟩

/-- `NtruPublicKey::encrypt`: `e = (m + p*r*h) mod q` where `m` is the
serialized message and `r` the blinding polynomial, which the Rust code
samples from `T(d, d)`; the embedding takes `r` as an argument.  The code
asserts `5 * msg.len() ≤ N`. -/
def NtruPublicKey.encrypt (n : Nat) (p q : Int) (k : NtruPublicKey) (msg : List Nat)
    (r : ConvPoly) : ConvPoly :=
  ((serialize msg).add ((ConvPoly.constant p).mul (r.mul k.h n) n)).modulo q

/-- `NtruPrivateKey::decrypt`: `a = center_lift(e * f mod q)`, then
`deserialize((a * f_p) mod p)`. -/
def NtruPrivateKey.decrypt (n : Nat) (p q : Int) (k : NtruPrivateKey) (e : ConvPoly) :
    List Nat :=
  deserialize ((((e.mul k.f n).center_lift q).mul k.f_p n).modulo p)

/-- Membership in `T(numOnes, numNegOnes)` as produced by
`ternary_polynomial(n, ..)` (which returns a trimmed length-`n` vector). -/
def ConvPoly.isTernary (p : ConvPoly) (numOnes numNegOnes n : Nat) : Prop :=
  p.coeffs.length ≤ n ∧ p.coeffs.count 1 = numOnes ∧ p.coeffs.count (-1) = numNegOnes ∧
    ∀ c ∈ p.coeffs, c = -1 ∨ c = 0 ∨ c = 1

instance (p : ConvPoly) (a b n : Nat) : Decidable (p.isTernary a b n) := by
  unfold ConvPoly.isTernary
  infer_instance

/-! ### NTRU decryption correctness -/

/-- Pointwise extraction of an inverse hypothesis
`(f * fi) mod q = 1` into a congruence of convolutions with the delta
function. -/
theorem inverse_hyp_pointwise (f fi : ConvPoly) (n : Nat) (q : Int) (hn : 0 < n) (hq : 1 < q)
    (hf_len : f.coeffs.length ≤ n) (hfi_len : fi.coeffs.length ≤ n)
    (hinv : (f.mul fi n).modulo q = ConvPoly.constant 1) :
    ∀ i, cconv n f.coeff fi.coeff i ≡ (if i = 0 then 1 else 0) [ZMOD q] := by
  intro i
  have h1 := congrArg (fun p : ConvPoly => p.coeff i) hinv
  simp only at h1
  rw [ConvPoly.coeff_modulo, ConvPoly.coeff_mul f fi n hn hf_len hfi_len,
    ConvPoly.coeff_constant] at h1
  show cconv n f.coeff fi.coeff i % q = (if i = 0 then 1 else 0) % q
  rw [h1]
  by_cases hi : i = 0
  · rw [if_pos hi, Int.emod_eq_of_lt (by omega) (by omega)]
  · rw [if_neg hi, Int.emod_eq_of_lt (by omega) (by omega)]

/-- Distribution of a convolution over a sum with a scalar multiple in the
first argument. -/
theorem cconv_add_smul_split (n : Nat) (c : Int) (A B F : Nat → Int) (k : Nat) :
    cconv n (fun j => A j + c * B j) F k = cconv n A F k + c * cconv n B F k := by
  rw [cconv_comm n (fun j => A j + c * B j) F k, cconv_add_right]
  have hs : cconv n F (fun j => c * B j) k = c * cconv n F B k := by
    rw [cconv_comm n F _ k, cconv_smul_left, cconv_comm]
  rw [hs, cconv_comm n F A k, cconv_comm n F B k]

/-- Structure equality from coefficient-list equality. -/
theorem ConvPoly.eq_of_coeffs (p : ConvPoly) (l : List Int) (h : p.coeffs = l) : p = ⟨l⟩ := by
  cases p
  cases h
  rfl

/-- Claim C1 (amended).  For every valid NTRU key pair -- `f` from
`T(d+1, d)` with inverses `f_p` mod `p = 3` and `f_q` mod `q`, `g` from
`T(d, d)`, `h = f_q * g` -- and every non-empty byte sequence `msg` whose
bytes are non-zero and below 242, with `5 * |msg| ≤ N`: if the polynomial
`p*r*g + m*f` (computed over `Z[x]/(x^N - 1)`) has all coefficients
strictly within `(-q/2, q/2]` (so that the centered lift fixes it), then
`decrypt (encrypt msg) = msg`. -/
theorem claim_C1_decrypt_encrypt
    (n d : Nat) (q : Int) (f f_p f_q g r : ConvPoly) (msg : List Nat)
    (hn : 0 < n) (hq : 1 < q)
    (hmsg : 5 * msg.length ≤ n) (hne : msg ≠ [])
    (hbytes : ∀ b ∈ msg, 0 < b ∧ b < 242)
    (hf : f.isTernary (d + 1) d n) (hg : g.isTernary d d n) (hr : r.isTernary d d n)
    (hfp_len : f_p.coeffs.length ≤ n) (hfq_len : f_q.coeffs.length ≤ n)
    (hfp : (f.mul f_p n).modulo 3 = ConvPoly.constant 1)
    (hfq : (f.mul f_q n).modulo q = ConvPoly.constant 1)
    (hwidth : ∀ i, i < n →
      -q < 2 * (((ConvPoly.constant 3).mul (r.mul g n) n).add
          ((serialize msg).mul f n)).coeff i ∧
        2 * (((ConvPoly.constant 3).mul (r.mul g n) n).add
          ((serialize msg).mul f n)).coeff i ≤ q) :
    NtruPrivateKey.decrypt n 3 q ⟨f, f_p, f_q, g⟩
      (NtruPublicKey.encrypt n 3 q (NtruPublicKey.ofPrivate n ⟨f, f_p, f_q, g⟩) msg r) =
      msg := by
  obtain ⟨hf_len, -, -, -⟩ := hf
  obtain ⟨hg_len, -, -, -⟩ := hg
  obtain ⟨hr_len, -, -, -⟩ := hr
  have hq0 : (0 : Int) < q := by omega
  have hm_len : (serialize msg).coeffs.length ≤ n := by
    show (serializeDigits msg).length ≤ n
    rw [serializeDigits_length msg (fun b hb => (hbytes b hb).2)]
    omega
  -- abbreviations
  set hpoly : ConvPoly := f_q.mul g n with hhdef
  have hh_len : hpoly.coeffs.length ≤ n := ConvPoly.length_mul_le _ _ _ hn
  set e : ConvPoly :=
    ((serialize msg).add ((ConvPoly.constant 3).mul (r.mul hpoly n) n)).modulo q with hedef
  set TT : ConvPoly :=
    ((ConvPoly.constant 3).mul (r.mul g n) n).add ((serialize msg).mul f n) with hTTdef
  have hpRH_len : ((ConvPoly.constant 3).mul (r.mul hpoly n) n).coeffs.length ≤ n :=
    ConvPoly.length_mul_le _ _ _ hn
  have he_len : e.coeffs.length ≤ n := by
    rw [hedef]
    exact le_trans (ConvPoly.length_modulo_le _ _)
      (le_trans (ConvPoly.length_add_le _ _) (max_le hm_len hpRH_len))
  have hTT_len : TT.coeffs.length ≤ n := by
    rw [hTTdef]
    exact le_trans (ConvPoly.length_add_le _ _)
      (max_le (ConvPoly.length_mul_le _ _ _ hn) (ConvPoly.length_mul_le _ _ _ hn))
  have hTT_coeff : ∀ k, TT.coeff k =
      3 * cconv n r.coeff g.coeff k + cconv n (serialize msg).coeff f.coeff k := by
    intro k
    rw [hTTdef]
    rw [ConvPoly.coeff_add,
      ConvPoly.coeff_constant_mul 3 _ n hn (ConvPoly.length_mul_le _ _ _ hn),
      ConvPoly.coeff_mul r g n hn hr_len hg_len,
      ConvPoly.coeff_mul (serialize msg) f n hn hm_len hf_len]
  have hHfun : hpoly.coeff = cconv n f_q.coeff g.coeff :=
    funext (fun k => ConvPoly.coeff_mul f_q g n hn hfq_len hg_len k)
  -- the coefficient function of the ciphertext, mod q
  have hE : ∀ j, e.coeff j ≡
      (serialize msg).coeff j + 3 * cconv n r.coeff hpoly.coeff j [ZMOD q] := by
    intro j
    rw [hedef]
    rw [ConvPoly.coeff_modulo, ConvPoly.coeff_add,
      ConvPoly.coeff_constant_mul 3 _ n hn (ConvPoly.length_mul_le _ _ _ hn),
      ConvPoly.coeff_mul r hpoly n hn hr_len hh_len]
    exact Int.emod_emod_of_dvd _ dvd_rfl
  -- congruence of `f * f_q` with the delta function
  have hFFq := inverse_hyp_pointwise f f_q n q hn hq hf_len hfq_len hfq
  -- `(r * (f_q * g)) * f ≡ r * g  (mod q)`
  have hstep : ∀ k,
      cconv n (cconv n r.coeff (cconv n f_q.coeff g.coeff)) f.coeff k ≡
        cconv n r.coeff g.coeff k [ZMOD q] := by
    intro k
    have hinner : ∀ u, cconv n (cconv n f_q.coeff g.coeff) f.coeff u ≡
        g.coeff u [ZMOD q] := by
      intro u
      calc cconv n (cconv n f_q.coeff g.coeff) f.coeff u
          = cconv n f.coeff (cconv n f_q.coeff g.coeff) u := cconv_comm n _ _ u
        _ = cconv n (cconv n f.coeff f_q.coeff) g.coeff u :=
            (cconv_assoc n hn f.coeff f_q.coeff g.coeff u).symm
        _ ≡ cconv n (fun i => if i = 0 then 1 else 0) g.coeff u [ZMOD q] :=
            cconv_congr n q _ _ _ _ hFFq (fun _ => Int.ModEq.refl _) u
        _ = 1 * g.coeff u :=
            cconv_const n hn 1 g.coeff (ConvPoly.coeff_eq_zero_of_len_le g n hg_len) u
        _ = g.coeff u := one_mul _
    calc cconv n (cconv n r.coeff (cconv n f_q.coeff g.coeff)) f.coeff k
        = cconv n r.coeff (cconv n (cconv n f_q.coeff g.coeff) f.coeff) k :=
          cconv_assoc n hn _ _ _ k
      _ ≡ cconv n r.coeff g.coeff k [ZMOD q] :=
          cconv_congr n q _ _ _ _ (fun _ => Int.ModEq.refl _) hinner k
  -- the main mod-q congruence: `e * f ≡ 3*r*g + m*f`
  have hmain : ∀ k, cconv n e.coeff f.coeff k ≡ TT.coeff k [ZMOD q] := by
    intro k
    have c1 : cconv n e.coeff f.coeff k ≡
        cconv n (fun j => (serialize msg).coeff j + 3 * cconv n r.coeff hpoly.coeff j)
          f.coeff k [ZMOD q] :=
      cconv_congr n q _ _ _ _ hE (fun _ => Int.ModEq.refl _) k
    rw [hHfun] at c1
    rw [cconv_add_smul_split n 3 (serialize msg).coeff
      (cconv n r.coeff (cconv n f_q.coeff g.coeff)) f.coeff k] at c1
    have c2 : cconv n (serialize msg).coeff f.coeff k +
        3 * cconv n (cconv n r.coeff (cconv n f_q.coeff g.coeff)) f.coeff k ≡
        cconv n (serialize msg).coeff f.coeff k + 3 * cconv n r.coeff g.coeff k [ZMOD q] :=
      (Int.ModEq.refl _).add ((Int.ModEq.refl 3).mul (hstep k))
    have c3 := c1.trans c2
    rw [hTT_coeff k]
    calc cconv n e.coeff f.coeff k
        ≡ cconv n (serialize msg).coeff f.coeff k + 3 * cconv n r.coeff g.coeff k [ZMOD q] := c3
      _ = 3 * cconv n r.coeff g.coeff k + cconv n (serialize msg).coeff f.coeff k := by ring
  -- the centered lift recovers `TT` exactly
  have haTT : ∀ k, ((e.mul f n).center_lift q).coeff k = TT.coeff k := by
    intro k
    rw [ConvPoly.coeff_center_lift _ q hq0 k, ConvPoly.coeff_mul e f n hn he_len hf_len k,
      intCenterLift_congr _ _ q (hmain k)]
    by_cases hk : k < n
    · exact intCenterLift_fixed _ q hq0 ((hwidth k hk).1) ((hwidth k hk).2)
    · have h0 : TT.coeff k = 0 :=
        ConvPoly.coeff_eq_zero_of_len_le TT n hTT_len k (Nat.le_of_not_lt hk)
      rw [h0]
      exact intCenterLift_fixed 0 q hq0 (by omega) (by omega)
  have ha_len : ((e.mul f n).center_lift q).coeffs.length ≤ n :=
    le_trans (ConvPoly.length_center_lift_le _ _) (ConvPoly.length_mul_le _ _ _ hn)
  -- congruence of `f * f_p` with the delta function, mod 3
  have hFFp := inverse_hyp_pointwise f f_p n 3 hn (by omega) hf_len hfp_len hfp
  -- the plaintext polynomial is the mod-3 image of the digit vector
  have hplain : ∀ k, (((e.mul f n).center_lift q).mul f_p n).coeff k ≡
      (serialize msg).coeff k [ZMOD 3] := by
    intro k
    rw [ConvPoly.coeff_mul _ f_p n hn ha_len hfp_len k]
    have hafun : ((e.mul f n).center_lift q).coeff = TT.coeff := funext haTT
    rw [hafun]
    have hTTfun : TT.coeff = fun k =>
        cconv n (serialize msg).coeff f.coeff k + 3 * cconv n r.coeff g.coeff k := by
      funext k
      rw [hTT_coeff k]
      ring
    rw [hTTfun]
    rw [cconv_add_smul_split n 3 (cconv n (serialize msg).coeff f.coeff)
      (cconv n r.coeff g.coeff) f_p.coeff k]
    have c4 : cconv n (cconv n (serialize msg).coeff f.coeff) f_p.coeff k ≡
        (serialize msg).coeff k [ZMOD 3] := by
      calc cconv n (cconv n (serialize msg).coeff f.coeff) f_p.coeff k
          = cconv n (serialize msg).coeff (cconv n f.coeff f_p.coeff) k :=
            cconv_assoc n hn _ _ _ k
        _ ≡ cconv n (serialize msg).coeff (fun i => if i = 0 then 1 else 0) k [ZMOD 3] :=
            cconv_congr n 3 _ _ _ _ (fun _ => Int.ModEq.refl _) hFFp k
        _ = cconv n (fun i => if i = 0 then 1 else 0) (serialize msg).coeff k :=
            cconv_comm n _ _ k
        _ = 1 * (serialize msg).coeff k :=
            cconv_const n hn 1 _ (ConvPoly.coeff_eq_zero_of_len_le _ n hm_len) k
        _ = (serialize msg).coeff k := one_mul _
    have c5 : (3 : Int) * cconv n (cconv n r.coeff g.coeff) f_p.coeff k ≡ 0 [ZMOD 3] :=
      Int.modEq_zero_iff_dvd.mpr ⟨cconv n (cconv n r.coeff g.coeff) f_p.coeff k, rfl⟩
    have c6 := c4.add c5
    simpa using c6
  -- reconstruct the plaintext polynomial as a list and decode it
  have hfinal : (((e.mul f n).center_lift q).mul f_p n).modulo 3 =
      ⟨stripzeros ((serializeDigits msg).map (fun dd => dd % 3))⟩ := by
    have hmapeq : ∀ i,
        coeffAt (((((e.mul f n).center_lift q).mul f_p n)).coeffs.map (fun c => c % 3)) i =
        coeffAt ((serializeDigits msg).map (fun dd => dd % 3)) i := by
      intro i
      rw [coeffAt_map_zero _ (Int.zero_emod 3), coeffAt_map_zero _ (Int.zero_emod 3)]
      exact hplain i
    have hstripeq := stripzeros_congr _ _ hmapeq
    have hne2 : stripzeros ((((e.mul f n).center_lift q).mul f_p n).coeffs.map
        (fun c => c % 3)) ≠ [] := by
      rw [hstripeq]
      exact strip_serializeDigits_mod3_ne_nil msg hne hbytes
    have hco : ((((e.mul f n).center_lift q).mul f_p n).modulo 3).coeffs =
        stripzeros ((serializeDigits msg).map (fun dd => dd % 3)) := by
      show (ConvPoly.trim ⟨(((e.mul f n).center_lift q).mul f_p n).coeffs.map
        (fun c => c % 3)⟩).coeffs = _
      rw [ConvPoly.trim_eq_strip _ hne2, hstripeq]
    exact ConvPoly.eq_of_coeffs _ _ hco
  show NtruPrivateKey.decrypt n 3 q ⟨f, f_p, f_q, g⟩ e = msg
  show deserialize ((((e.mul f n).center_lift q).mul f_p n).modulo 3) = msg
  rw [hfinal]
  exact deserialize_strip_mod3 msg hne hbytes

set_option maxRecDepth 100000 in
/-- Witness for claim C1: a concrete valid instance (ring size 5, `d = 0`,
`f = f_p = f_q = 1`, `g = r = 0`, message `[1]`) satisfying every
hypothesis, on which decryption inverts encryption. -/
theorem claim_C1_decrypt_encrypt_witness :
    NtruPrivateKey.decrypt 5 3 419 ⟨⟨[1]⟩, ⟨[1]⟩, ⟨[1]⟩, ⟨[0]⟩⟩
      (NtruPublicKey.encrypt 5 3 419
        (NtruPublicKey.ofPrivate 5 ⟨⟨[1]⟩, ⟨[1]⟩, ⟨[1]⟩, ⟨[0]⟩⟩) [1] ⟨[0]⟩) = [1] :=
  claim_C1_decrypt_encrypt 5 0 419 ⟨[1]⟩ ⟨[1]⟩ ⟨[1]⟩ ⟨[0]⟩ ⟨[0]⟩ [1]
    (by decide) (by decide) (by decide) (by decide) (by decide)
    (by decide) (by decide) (by decide) (by decide) (by decide)
    (by decide) (by decide) (by decide)

set_option maxRecDepth 1000000 in
/-- Counterexample to claim C1 as frozen: with the perfectly valid key
`f = f_p = f_q = 1`, `g = r = 0` (`d = 0`), ring size 10, every condition
of the claim holds for the messages `[65, 0]` and `[]` (the relevant
polynomial `p*r*g + m*f` is the ternary digit vector itself, with
coefficients in `{-1, 0, 1}`, far inside `(-q/2, q/2]`), yet decryption
does not return the original message: the zero byte is dropped, and the
empty message decrypts to `[0]`. -/
theorem claim_C1_counterexample :
    NtruPrivateKey.decrypt 10 3 419 ⟨⟨[1]⟩, ⟨[1]⟩, ⟨[1]⟩, ⟨[0]⟩⟩
        (NtruPublicKey.encrypt 10 3 419
          (NtruPublicKey.ofPrivate 10 ⟨⟨[1]⟩, ⟨[1]⟩, ⟨[1]⟩, ⟨[0]⟩⟩) [65, 0] ⟨[0]⟩) = [65] ∧
      ([65] : List Nat) ≠ [65, 0] ∧
      NtruPrivateKey.decrypt 10 3 419 ⟨⟨[1]⟩, ⟨[1]⟩, ⟨[1]⟩, ⟨[0]⟩⟩
        (NtruPublicKey.encrypt 10 3 419
          (NtruPublicKey.ofPrivate 10 ⟨⟨[1]⟩, ⟨[1]⟩, ⟨[1]⟩, ⟨[0]⟩⟩) [] ⟨[0]⟩) = [0] ∧
      ([0] : List Nat) ≠ [] ∧
      ConvPoly.isTernary ⟨[1]⟩ 1 0 10 ∧ ConvPoly.isTernary ⟨[0]⟩ 0 0 10 ∧
      ((⟨[1]⟩ : ConvPoly).mul ⟨[1]⟩ 10).modulo 3 = ConvPoly.constant 1 ∧
      ((⟨[1]⟩ : ConvPoly).mul ⟨[1]⟩ 10).modulo 419 = ConvPoly.constant 1 ∧
      (((ConvPoly.constant 3).mul ((⟨[0]⟩ : ConvPoly).mul ⟨[0]⟩ 10) 10).add
        ((serialize [65, 0]).mul ⟨[1]⟩ 10)).coeffs = [0, -1, 1, 0, -1] := by
  decide

/-- Claim C3 (amended): the byte codec round-trips on messages whose bytes
are non-zero and below 242 (with the serializer's length precondition
`5 |msg| ≤ N`). -/
theorem claim_C3_codec_roundtrip (msg : List Nat) (_h5 : 5 * msg.length ≤ ntruN)
    (hbytes : ∀ b ∈ msg, 0 < b ∧ b < 242) :
    deserialize (serialize msg) = msg :=
  deserialize_serialize msg hbytes

set_option maxRecDepth 100000 in
/-- Witness for claim C3 on the message "hello". -/
theorem claim_C3_codec_roundtrip_witness :
    deserialize (serialize [104, 101, 108, 108, 111]) = [104, 101, 108, 108, 111] :=
  claim_C3_codec_roundtrip [104, 101, 108, 108, 111] (by decide) (by decide)

set_option maxRecDepth 100000 in
/-- Counterexample to claim C3 as frozen: the zero byte satisfies
`5 * 1 ≤ N` but is dropped by the decoder (its chunk reads as end of
message), so `decode (encode [0]) = [] ≠ [0]`. -/
theorem claim_C3_codec_counterexample :
    deserialize (serialize [0]) = [] ∧ deserialize (serialize [0]) ≠ [0] := by decide

/-! ## Claim C7: the per-byte chunk codec -/

/-- Modelled from the spec (§4.5): relabel the base-3 digit 2 as -1. -/
def relabelDigit (dd : Nat) : Int := if dd = 2 then -1 else (dd : Int)

/-- Modelled from the spec: the plain base-3 five-digit chunk of `v`,
most-significant digit first, with every digit 2 written as -1 and no
carry. -/
def plainBase3Chunk (v : Nat) : List Int :=
  [relabelDigit (v / 81 % 3), relabelDigit (v / 27 % 3), relabelDigit (v / 9 % 3),
    relabelDigit (v / 3 % 3), relabelDigit (v % 3)]

/-- Modelled from the spec (§4.5, the algorithm claim C7 describes):
balanced-ternary digit extraction with the compensating `+1` carry -- while
`v > 0`: `r := v mod 3`, `v := v / 3`, and when `r = 2` emit `-1` and add
`1` back into `v`.  Fuel-structural recursion; fuel `v` bounds the
iteration count since the carried value still strictly decreases. -/
def specCarryDigitsAux : Nat → Nat → List Int
  | 0, _ => []
  | fuel + 1, v =>
    if v = 0 then []
    else if v % 3 = 2 then specCarryDigitsAux fuel (v / 3 + 1) ++ [-1]
    else specCarryDigitsAux fuel (v / 3) ++ [(v % 3 : Int)]

/-- Modelled from the spec: the carry-correct balanced ternary chunk,
padded to five digits. -/
def specBalancedChunk (v : Nat) : List Int :=
  if v = 0 then List.replicate 5 0
  else List.replicate (5 - (specCarryDigitsAux v v).length) 0 ++ specCarryDigitsAux v v

/-- Counterexample to claim C7 as frozen: for `v = 2`, the code emits the
chunk `[0,0,0,0,-1]` (plain relabeling, no carry), whereas the
balanced-ternary algorithm with the compensating carry that the claim
describes produces `[0,0,0,1,-1]` (that is, `2 = 3 - 1`). -/
theorem claim_C7_counterexample :
    ternary 2 = [0, 0, 0, 0, -1] ∧ specBalancedChunk 2 = [0, 0, 0, 1, -1] ∧
      ternary 2 ≠ specBalancedChunk 2 := by decide

set_option maxRecDepth 100000 in
/-- Claim C7 (amended): for every byte value `v ≤ 241`, the encoder emits
the plain base-3 representation of `v` padded to five digits with the
remainder 2 relabeled as digit -1 and no compensating carry; the decoder
recovers `v` by positional base-3 interpretation reading digit -1 as 2
(and reads the all-zero chunk of `v = 0` as end-of-message). -/
theorem claim_C7_chunk_codec :
    ∀ v : Nat, v < 242 →
      ternary v = plainBase3Chunk v ∧
        (0 < v → out_of_ternary (ternary v) = some v) ∧
        (v = 0 → out_of_ternary (ternary v) = none) := by decide

/-- Witness for claim C7 at `v = 5`. -/
theorem claim_C7_chunk_codec_witness :
    ternary 5 = plainBase3Chunk 5 ∧ out_of_ternary (ternary 5) = some 5 :=
  ⟨(claim_C7_chunk_codec 5 (by decide)).1,
    (claim_C7_chunk_codec 5 (by decide)).2.1 (by decide)⟩

/-! ## Claim C8: equality and canonical (trimmed) forms -/

theorem ConvPoly.trim_trim (p : ConvPoly) : p.trim.trim = p.trim := by
  unfold ConvPoly.trim
  by_cases hz : stripzeros p.coeffs = []
  · simp only [hz, if_pos]
    have hall : ∀ c ∈ p.coeffs, c = 0 := (stripzeros_eq_nil_iff _).mp hz
    have hall1 : ∀ c ∈ p.coeffs.take 1, c = 0 := fun c hc => hall c (List.mem_of_mem_take hc)
    have hz1 : stripzeros (p.coeffs.take 1) = [] := (stripzeros_eq_nil_iff _).mpr hall1
    simp only [hz1, if_pos]
    rw [List.take_take]
    norm_num
  · simp only [hz, if_neg, not_false_iff]
    have hid := stripzeros_idem p.coeffs
    have hne : stripzeros (stripzeros p.coeffs) ≠ [] := by
      rw [hid]
      exact hz
    simp only [hne, if_neg, not_false_iff, hid]
    rw [if_neg hz]

/-- Counterexample to claim C8 as frozen: `[1, 0]` and `[1]` differ only in
a trailing zero (the trimmed form of the first is exactly the second), yet
the derived equality of `ConvPoly` compares the raw coefficient vectors and
distinguishes them. -/
theorem claim_C8_counterexample :
    (⟨[1, 0]⟩ : ConvPoly) ≠ ⟨[1]⟩ ∧ ConvPoly.trim ⟨[1, 0]⟩ = ⟨[1]⟩ := by decide

/-- Claim C8 (amended): equality on `ConvPoly` is raw coefficient-vector
equality (it does not ignore trailing zeros, as the counterexample shows),
but every arithmetic operation -- `add`, `sub`, `mul`, `modulo`,
`center_lift` -- returns its result in trimmed canonical form, so equality
tests between arithmetic results behave canonically. -/
theorem claim_C8_ops_trimmed (a b : ConvPoly) (n : Nat) (m : Int) :
    (a.add b).trim = a.add b ∧ (a.sub b).trim = a.sub b ∧ (a.mul b n).trim = a.mul b n ∧
      (a.modulo m).trim = a.modulo m ∧ (a.center_lift m).trim = a.center_lift m := by
  refine ⟨?_, ?_, ?_, ?_, ?_⟩
  · exact ConvPoly.trim_trim _
  · exact ConvPoly.trim_trim _
  · unfold ConvPoly.mul
    by_cases hz : (a.isZero || b.isZero) = true
    · simp only [hz, if_pos]
      decide
    · simp only [hz, if_neg, not_false_iff]
      exact ConvPoly.trim_trim _
  · exact ConvPoly.trim_trim _
  · exact ConvPoly.trim_trim _

/-! ## Claim C9: public-key byte codec (`ntru_key.rs`, lines 53-73) -/

/-- Big-endian byte decomposition of an `i32` (`to_be_bytes`), on the
two's-complement representation. -/
def i32ToBeBytes (x : Int) : List Nat :=
  [(x % 4294967296).toNat / 16777216 % 256, (x % 4294967296).toNat / 65536 % 256,
    (x % 4294967296).toNat / 256 % 256, (x % 4294967296).toNat % 256]

/-- Big-endian reconstruction of an `i32` (`from_be_bytes`). -/
def i32FromBeBytes (b0 b1 b2 b3 : Nat) : Int :=
  if b0 * 16777216 + b1 * 65536 + b2 * 256 + b3 < 2147483648 then
    ((b0 * 16777216 + b1 * 65536 + b2 * 256 + b3 : Nat) : Int)
  else ((b0 * 16777216 + b1 * 65536 + b2 * 256 + b3 : Nat) : Int) - 4294967296

/-- `NtruPublicKey::serialize` byte accumulation: each coefficient as four
big-endian bytes, in order. -/
def coeffsToBeBytes : List Int → List Nat
  | [] => []
  | c :: rest => i32ToBeBytes c ++ coeffsToBeBytes rest

/-- `NtruPublicKey::serialize`: the raw coefficient bytes of `h`, with no
length prefix. -/
def NtruPublicKey.serializeKey (k : NtruPublicKey) : List Nat := coeffsToBeBytes k.h.coeffs

/-- `buf.chunks(4)`. -/
def chunks4 : List Nat → List (List Nat)
  | [] => []
  | a :: b :: c :: d :: rest => [a, b, c, d] :: chunks4 rest
  | l => [l]

/-- One chunk back to an `i32`.  (The Rust `copy_from_slice` panics when
the final chunk is shorter than 4; the defaulted access below only differs
on that panicking case, which cannot arise on serializer output.) -/
def bytesToI32 (chunk : List Nat) : Int :=
  i32FromBeBytes (chunk.getD 0 0) (chunk.getD 1 0) (chunk.getD 2 0) (chunk.getD 3 0)

/-- `NtruPublicKey::deserialize`. -/
def NtruPublicKey.deserializeKey (buf : List Nat) : NtruPublicKey :=
  ⟨⟨(chunks4 buf).map bytesToI32⟩⟩

/-- Modelled from the spec (§4.4 "Public-key serialization: length-prefixed
coefficient array"): a big-endian 4-byte length prefix followed by the
coefficient bytes.  Used only to compare the spec's sentence against the
code's actual (unprefixed) format. -/
def lenPrefixedSerializeKey (k : NtruPublicKey) : List Nat :=
  [k.h.coeffs.length / 16777216 % 256, k.h.coeffs.length / 65536 % 256,
    k.h.coeffs.length / 256 % 256, k.h.coeffs.length % 256] ++ coeffsToBeBytes k.h.coeffs

theorem i32_roundtrip (x : Int) (h1 : -2147483648 ≤ x) (h2 : x < 2147483648) :
    bytesToI32 (i32ToBeBytes x) = x := by
  show i32FromBeBytes ((x % 4294967296).toNat / 16777216 % 256)
    ((x % 4294967296).toNat / 65536 % 256) ((x % 4294967296).toNat / 256 % 256)
    ((x % 4294967296).toNat % 256) = x
  unfold i32FromBeBytes
  have hnn : (0 : Int) ≤ x % 4294967296 := Int.emod_nonneg x (by norm_num)
  have humod : ((x % 4294967296).toNat : Int) = x % 4294967296 := Int.toNat_of_nonneg hnn
  have hrecomb : (x % 4294967296).toNat / 16777216 % 256 * 16777216 +
      (x % 4294967296).toNat / 65536 % 256 * 65536 +
      (x % 4294967296).toNat / 256 % 256 * 256 + (x % 4294967296).toNat % 256 =
      (x % 4294967296).toNat := by
    have := Int.emod_lt_of_pos x (show (0 : Int) < 4294967296 by norm_num)
    omega
  rw [hrecomb]
  split
  · omega
  · omega

theorem chunks4_append4 (c X : List Nat) (h : c.length = 4) :
    chunks4 (c ++ X) = c :: chunks4 X := by
  cases c with
  | nil => simp at h
  | cons a t1 =>
    cases t1 with
    | nil => simp at h
    | cons b t2 =>
      cases t2 with
      | nil => simp at h
      | cons c' t3 =>
        cases t3 with
          | nil => simp at h
          | cons d t4 =>
            cases t4 with
            | nil => rfl
            | cons e t5 => simp at h

theorem coeffs_bytes_roundtrip (l : List Int)
    (h : ∀ c ∈ l, -2147483648 ≤ c ∧ c < 2147483648) :
    (chunks4 (coeffsToBeBytes l)).map bytesToI32 = l := by
  induction l with
  | nil => rfl
  | cons c rest ih =>
    have hc := h c (List.mem_cons_self _ _)
    show (chunks4 (i32ToBeBytes c ++ coeffsToBeBytes rest)).map bytesToI32 = c :: rest
    rw [chunks4_append4 _ _ (by rfl), List.map_cons, i32_roundtrip c hc.1 hc.2,
      ih (fun x hx => h x (List.mem_cons_of_mem _ hx))]

theorem coeffsToBeBytes_length (l : List Int) : (coeffsToBeBytes l).length = 4 * l.length := by
  induction l with
  | nil => rfl
  | cons c rest ih =>
    show (i32ToBeBytes c ++ coeffsToBeBytes rest).length = 4 * (rest.length + 1)
    rw [List.length_append, ih]
    show 4 + 4 * rest.length = 4 * (rest.length + 1)
    ring

/-- Counterexample to claim C9 as frozen: the code writes no length prefix.
For `h = [1]` the serializer emits exactly the 4 coefficient bytes
`[0,0,0,1]`, whereas the length-prefixed format the claim describes would
emit 8 bytes `[0,0,0,1, 0,0,0,1]`. -/
theorem claim_C9_counterexample :
    NtruPublicKey.serializeKey ⟨⟨[1]⟩⟩ = [0, 0, 0, 1] ∧
      lenPrefixedSerializeKey ⟨⟨[1]⟩⟩ = [0, 0, 0, 1, 0, 0, 0, 1] ∧
      NtruPublicKey.serializeKey ⟨⟨[1]⟩⟩ ≠ lenPrefixedSerializeKey ⟨⟨[1]⟩⟩ := by decide

/-- Claim C9 (amended): the public-key serialization is the unprefixed
sequence of big-endian 4-byte coefficients (4 bytes per coefficient), and
deserializing the serialized form yields a key equal to the original for
every public key (with `i32`-ranged coefficients, as in the Rust types). -/
theorem claim_C9_pubkey_roundtrip (k : NtruPublicKey)
    (h : ∀ c ∈ k.h.coeffs, -2147483648 ≤ c ∧ c < 2147483648) :
    NtruPublicKey.deserializeKey (NtruPublicKey.serializeKey k) = k ∧
      (NtruPublicKey.serializeKey k).length = 4 * k.h.coeffs.length := by
  constructor
  · show (⟨⟨(chunks4 (coeffsToBeBytes k.h.coeffs)).map bytesToI32⟩⟩ : NtruPublicKey) = k
    rw [coeffs_bytes_roundtrip k.h.coeffs h]
  · exact coeffsToBeBytes_length k.h.coeffs

/-- Witness for claim C9 on `h = [1, -2, 300]`. -/
theorem claim_C9_pubkey_roundtrip_witness :
    NtruPublicKey.deserializeKey (NtruPublicKey.serializeKey ⟨⟨[1, -2, 300]⟩⟩) =
        ⟨⟨[1, -2, 300]⟩⟩ ∧
      (NtruPublicKey.serializeKey ⟨⟨[1, -2, 300]⟩⟩).length = 4 * 3 :=
  claim_C9_pubkey_roundtrip ⟨⟨[1, -2, 300]⟩⟩ (by decide)

/-! ## Claim C2: classical onion-skin order (`messages/message.rs`, lines 92-125)

The classical (RSA) cipher is an external collaborator and the spec treats
it as an opaque asymmetric cipher, so it is embedded symbolically: `enc k c`
is the ciphertext of `c` under key `k`, and decryption under key `k` peels
exactly a matching `enc k` layer (a failed `unwrap` of a mismatched
decryption is `none`). -/

/-- Symbolic classical ciphertext. -/
inductive SymCipher where
  | raw : List Nat → SymCipher
  | enc : Nat → SymCipher → SymCipher
deriving DecidableEq, Repr

/-- Symbolic classical decryption with one key: peels one matching layer. -/
def symDecrypt (k : Nat) : SymCipher → Option SymCipher
  | SymCipher.enc k' inner => if k' = k then some inner else none
  | SymCipher.raw _ => none

/-- `Message::add_onion_skin`: encrypt with `onion_keys[0]` first, then
with each further key in list order. -/
def addOnionSkin (onionKeys : List Nat) (b : SymCipher) : SymCipher :=
  match onionKeys with
  | [] => b
  | k :: rest => rest.foldl (fun acc k' => SymCipher.enc k' acc) (SymCipher.enc k b)

/-- `Message::remove_onion_skin`: decrypt with `onion_keys[0]` first, then
with each further key in list order (each Rust `unwrap` panics on
mismatch, embedded as `none`). -/
def removeOnionSkin (onionKeys : List Nat) (b : SymCipher) : Option SymCipher :=
  match onionKeys with
  | [] => some b
  | k :: rest => rest.foldl (fun acc k' => acc.bind (symDecrypt k')) (symDecrypt k b)

/-- The key of the outermost wrap of a symbolic ciphertext. -/
def outermostKey : SymCipher → Option Nat
  | SymCipher.raw _ => none
  | SymCipher.enc k _ => some k

/-- Counterexample to claim C2 as frozen: with forward keys `[1, 2]`
(`K1 = 1` for the first hop), the egress transform produces
`enc 2 (enc 1 payload)` -- the outermost classical wrap is under `K2 = 2`,
the last key in the list, not under the first hop's key `K1 = 1`. -/
theorem claim_C2_counterexample :
    addOnionSkin [1, 2] (SymCipher.raw []) =
        SymCipher.enc 2 (SymCipher.enc 1 (SymCipher.raw [])) ∧
      outermostKey (addOnionSkin [1, 2] (SymCipher.raw [])) = some 2 ∧
      outermostKey (addOnionSkin [1, 2] (SymCipher.raw [])) ≠ some 1 := by decide

theorem addOnionSkin_foldl (keys : List Nat) (b : SymCipher) :
    addOnionSkin keys b = keys.foldl (fun acc k' => SymCipher.enc k' acc) b := by
  cases keys with
  | nil => rfl
  | cons k rest => rfl

theorem foldl_enc_getLast (keys : List Nat) (b : SymCipher) (hne : keys ≠ []) :
    outermostKey (keys.foldl (fun acc k' => SymCipher.enc k' acc) b) = keys.getLast? := by
  revert hne
  induction keys generalizing b with
  | nil => intro hne; exact absurd rfl hne
  | cons k rest ih =>
    intro _
    by_cases hr : rest = []
    · subst hr
      rfl
    · rw [List.foldl_cons, ih (SymCipher.enc k b) hr]
      cases rest with
      | nil => exact absurd rfl hr
      | cons k2 rest2 => rw [List.getLast?_cons_cons]

theorem removeOnionSkin_foldl (keys : List Nat) (b : SymCipher) :
    removeOnionSkin keys b = keys.foldl (fun acc k' => acc.bind (symDecrypt k'))
      (some b) := by
  cases keys with
  | nil => rfl
  | cons k rest =>
    show rest.foldl (fun acc k' => acc.bind (symDecrypt k')) (symDecrypt k b) =
      rest.foldl (fun acc k' => acc.bind (symDecrypt k')) ((some b).bind (symDecrypt k))
    rfl

theorem foldl_enc_peel (keys : List Nat) (b : SymCipher) :
    (keys.reverse).foldl (fun acc k' => acc.bind (symDecrypt k'))
      (some (keys.foldl (fun acc k' => SymCipher.enc k' acc) b)) = some b := by
  induction keys generalizing b with
  | nil => rfl
  | cons k rest ih =>
    rw [List.foldl_cons, List.reverse_cons, List.foldl_append]
    rw [ih (SymCipher.enc k b)]
    show (some (SymCipher.enc k b)).bind (symDecrypt k) = some b
    simp [symDecrypt]

/-- Claim C2 (amended): on egress the payload is classically encrypted with
`K1` first, then `K2`, ..., then `Kn` in list order (so `K1` is the
innermost wrap), and consequently the outermost classical wrap is the one
under the last key `Kn` -- not under the first hop's key `K1` (see the
counterexample).  Peeling in the reverse key order recovers the payload. -/
theorem claim_C2_onion_order (keys : List Nat) (b : SymCipher) (hne : keys ≠ []) :
    addOnionSkin keys b = keys.foldl (fun acc k' => SymCipher.enc k' acc) b ∧
      outermostKey (addOnionSkin keys b) = some (keys.getLast hne) ∧
      removeOnionSkin keys.reverse (addOnionSkin keys b) = some b := by
  refine ⟨addOnionSkin_foldl keys b, ?_, ?_⟩
  · rw [addOnionSkin_foldl, foldl_enc_getLast keys b hne]
    exact List.getLast?_eq_getLast keys hne
  · rw [addOnionSkin_foldl, removeOnionSkin_foldl]
    exact foldl_enc_peel keys b

/-- Witness for claim C2 with keys `[7, 8, 9]`. -/
theorem claim_C2_onion_order_witness :
    addOnionSkin [7, 8, 9] (SymCipher.raw [1]) =
        ([7, 8, 9] : List Nat).foldl (fun acc k' => SymCipher.enc k' acc)
          (SymCipher.raw [1]) ∧
      outermostKey (addOnionSkin [7, 8, 9] (SymCipher.raw [1])) =
        some (([7, 8, 9] : List Nat).getLast (by decide)) ∧
      removeOnionSkin ([7, 8, 9] : List Nat).reverse
        (addOnionSkin [7, 8, 9] (SymCipher.raw [1])) = some (SymCipher.raw [1]) :=
  claim_C2_onion_order [7, 8, 9] (SymCipher.raw [1]) (by decide)

/-! ## Claim C4: the relay CREATE handler (`nodes/relay.rs`, lines 103-110)

The handler's channel state is modelled with the classical keys opaque
(numbers), mirroring `Channel.backward_onion_keys` and the
circuit-id-to-channel table.  `Relay::handle_create` looks up the channel
for the payload's circuit id (the `unwrap` panics when absent, embedded as
`none`), pushes the payload public key onto the channel's backward onion
keys, and -- in the source as written -- sends nothing: the returned list
of outgoing CREATED payloads is empty. -/

/-- The channel state `handle_create` touches. -/
structure RelayChannel where
  backward_onion_keys : List Nat
deriving DecidableEq, Repr

/-- Relay state: the circuit-id-to-channel table. -/
structure RelayState where
  channels : List (Nat × RelayChannel)
deriving DecidableEq, Repr

/-- `Relay::handle_create`: record the payload public key as a backward
onion key of the circuit's channel.  The second component of the result is
the list of messages the handler sends in response -- the handler as
written sends none. -/
def handleCreate (st : RelayState) (circuitId publicKey : Nat) :
    Option (RelayState × List Nat) :=
  match st.channels.find? (fun e => e.1 = circuitId) with
  | none => none
  | some _ =>
    some
      (⟨st.channels.map (fun e =>
        if e.1 = circuitId then (e.1, ⟨e.2.backward_onion_keys ++ [publicKey]⟩) else e)⟩,
        ([] : List Nat))

/-- Claim C4 is a code bug: on a CREATE for an existing circuit (here
circuit 7, payload key 42) the handler does record the payload key as the
channel's backward onion key, but it sends no CREATED response at all --
the claim (and the spec's handler table) require a CREATED carrying a
fresh keypair's public half. -/
theorem claim_C4_create_no_reply :
    handleCreate ⟨[(7, ⟨[]⟩)]⟩ 7 42 = some (⟨[(7, ⟨[42]⟩)]⟩, ([] : List Nat)) := by decide

/-! ## Claim C10: the circuit table (`tables/circuit_table.rs`) -/

/-- `CircuitTable`: the port-to-circuit-id map and the used-circuit-id set,
modelled as association/element lists with map/set semantics (`HashMap`
keys and `HashSet` elements are unique, so removal filters all copies). -/
structure CircuitTable where
  circuits : List (Nat × Nat)
  used_circuit_ids : List Nat
deriving DecidableEq, Repr

/-- `CircuitTable::insert`: overwrite the port's mapping and add the id to
the used set. -/
def CircuitTable.insert (t : CircuitTable) (port circuitId : Nat) : CircuitTable :=
  ⟨(port, circuitId) :: t.circuits.filter (fun e => e.1 ≠ port),
    if circuitId ∈ t.used_circuit_ids then t.used_circuit_ids
    else circuitId :: t.used_circuit_ids⟩

/-- `CircuitTable::get`. -/
def CircuitTable.get (t : CircuitTable) (port : Nat) : Option Nat :=
  (t.circuits.find? (fun e => e.1 = port)).map (fun e => e.2)

/-- `CircuitTable::remove`: the Rust code first evaluates
`self.circuits[&port]`, which panics when the port is unmapped (the outer
`none` below), then removes the id from the used set and removes and
returns the mapping. -/
def CircuitTable.remove (t : CircuitTable) (port : Nat) : Option (Option Nat × CircuitTable) :=
  match t.get port with
  | none => none
  | some circuitId =>
    some (some circuitId,
      ⟨t.circuits.filter (fun e => e.1 ≠ port),
        t.used_circuit_ids.filter (fun x => x ≠ circuitId)⟩)

theorem find_filter_ne (l : List (Nat × Nat)) (port p : Nat) (hp : p ≠ port) :
    (l.filter (fun e => e.1 ≠ port)).find? (fun e => e.1 = p) =
      l.find? (fun e => e.1 = p) := by
  induction l with
  | nil => rfl
  | cons e rest ih =>
    rw [List.filter_cons]
    by_cases hport : e.1 = port
    · rw [if_neg (by simpa using hport), ih,
        List.find?_cons_of_neg _ (by simp [hport]; exact fun hc => hp (hc ▸ rfl))]
    · rw [if_pos (by simpa using hport)]
      by_cases hep : e.1 = p
      · rw [List.find?_cons_of_pos _ (by simpa using hep),
          List.find?_cons_of_pos _ (by simpa using hep)]
      · rw [List.find?_cons_of_neg _ (by simpa using hep),
          List.find?_cons_of_neg _ (by simpa using hep), ih]

theorem circuitTable_remove_mapped (t : CircuitTable) (port circuitId : Nat)
    (h : t.get port = some circuitId) :
    ∃ t' : CircuitTable,
      t.remove port = some (some circuitId, t') ∧
        t'.get port = none ∧
        circuitId ∉ t'.used_circuit_ids ∧
        (∀ p, p ≠ port → t'.get p = t.get p) ∧
        (∀ j, j ≠ circuitId → (j ∈ t'.used_circuit_ids ↔ j ∈ t.used_circuit_ids)) := by
  refine ⟨⟨t.circuits.filter (fun e => e.1 ≠ port),
    t.used_circuit_ids.filter (fun x => x ≠ circuitId)⟩, ?_, ?_, ?_, ?_, ?_⟩
  · unfold CircuitTable.remove
    rw [h]
  · unfold CircuitTable.get
    rw [List.find?_eq_none.mpr]
    · rfl
    · intro e he
      have := (List.mem_filter.mp he).2
      simpa using this
  · intro hc
    have := (List.mem_filter.mp hc).2
    simp at this
  · intro p hp
    unfold CircuitTable.get
    rw [find_filter_ne t.circuits port p hp]
  · intro j hj
    constructor
    · intro hmem
      exact (List.mem_filter.mp hmem).1
    · intro hmem
      exact List.mem_filter.mpr ⟨hmem, by simpa using hj⟩

theorem circuitTable_remove_unmapped (t : CircuitTable) (port : Nat)
    (h : t.get port = none) : t.remove port = none := by
  unfold CircuitTable.remove
  rw [h]

/-- Claim C10: for every `CircuitTable` and destination port, if the port
is mapped then `remove` deletes the port's mapping, removes the mapped
circuit id from the used-circuit-id set, leaves all other ports and ids
untouched, and returns `Some` of that circuit id; if the port is not
mapped, `remove` panics (it indexes the map before checking membership,
modelled by the outer `none`) rather than returning `None`. -/
theorem claim_C10_circuit_table_remove (t : CircuitTable) (port : Nat) :
    (∀ circuitId, t.get port = some circuitId →
      ∃ t' : CircuitTable, t.remove port = some (some circuitId, t') ∧
        t'.get port = none ∧ circuitId ∉ t'.used_circuit_ids ∧
        (∀ p, p ≠ port → t'.get p = t.get p) ∧
        (∀ j, j ≠ circuitId → (j ∈ t'.used_circuit_ids ↔ j ∈ t.used_circuit_ids))) ∧
      (t.get port = none → t.remove port = none) :=
  ⟨fun circuitId h => circuitTable_remove_mapped t port circuitId h,
    circuitTable_remove_unmapped t port⟩

/-- Witness for claim C10: a table mapping port 80 to circuit 5 with used
ids `{5, 9}`; removing port 80 deletes both, removing port 81 panics. -/
theorem claim_C10_circuit_table_remove_witness :
    CircuitTable.remove ⟨[(80, 5)], [5, 9]⟩ 80 = some (some 5, ⟨[], [9]⟩) ∧
      CircuitTable.remove ⟨[(80, 5)], [5, 9]⟩ 81 = none :=
  ⟨by decide, (claim_C10_circuit_table_remove ⟨[(80, 5)], [5, 9]⟩ 81).2 (by decide)⟩

/-! ## Polynomial division, extended gcd and inverse
(`convolution_polynomial.rs`) -/

/-- The term `c * x^d` built inside the `div_mod` loop (`coeffs = vec![0; d+1];
coeffs[d] = c`). -/
def termPoly (d : Nat) (c : Int) : ConvPoly := ⟨List.replicate d 0 ++ [c]⟩

/-- The `while` loop of `ConvPoly::div_mod`, with explicit fuel; `none` is
never produced when the fuel bound of `ConvPoly.div_mod` is used. -/
def divModLoop (divisor : ConvPoly) (m : Int) (n : Nat) (v : Int) :
    Nat → ConvPoly → ConvPoly → Option (ConvPoly × ConvPoly)
  | 0, _, _ => none
  | fuel + 1, quotient, remainder =>
    if divisor.deg ≤ remainder.deg ∧ remainder.isZero = false then
      divModLoop divisor m n v fuel
        ((quotient.add (termPoly (remainder.deg - divisor.deg)
            ((remainder.lc * v) % m))).modulo m)
        ((remainder.sub (divisor.mul (termPoly (remainder.deg - divisor.deg)
            ((remainder.lc * v) % m)) n)).modulo m)
    else some (quotient, remainder)

/-- `ConvPoly::div_mod`: `none` models both the assertion failure on a zero
divisor and the `Err` when the divisor's leading coefficient has no inverse
mod `m`. -/
def ConvPoly.div_mod (p divisor : ConvPoly) (m : Int) (n : Nat) :
    Option (ConvPoly × ConvPoly) :=
  if divisor.isZero = true then none
  else
    match intInverse divisor.lc m with
    | none => none
    | some v =>
        divModLoop divisor m n v ((p.mul (ConvPoly.constant 1) n).deg + 2)
          (ConvPoly.constant 0) (p.mul (ConvPoly.constant 1) n)

/-- The `while` loop of `ConvPoly::extended_gcd`, with explicit fuel;
arguments are `old_r r old_s s old_t t`. -/
def extGcdLoop (m : Int) (n : Nat) :
    Nat → ConvPoly → ConvPoly → ConvPoly → ConvPoly → ConvPoly → ConvPoly →
    Option (ConvPoly × ConvPoly × ConvPoly)
  | 0, _, _, _, _, _, _ => none
  | fuel + 1, old_r, r, old_s, s, old_t, t =>
    if r.isZero = true then some (old_r, old_s, old_t)
    else
      match ConvPoly.div_mod old_r r m n with
      | none => none
      | some (q, new_r) =>
          extGcdLoop m n fuel r new_r s ((old_s.sub (s.mul q n)).modulo m)
            t ((old_t.sub (t.mul q n)).modulo m)

/-- `ConvPoly::extended_gcd`: `none` models the assertion failures (both
inputs zero, or `m ≤ 0`) and a failing division step. -/
def ConvPoly.extended_gcd (a b : ConvPoly) (m : Int) (n : Nat) :
    Option (ConvPoly × ConvPoly × ConvPoly) :=
  if a.isZero = true ∧ b.isZero = true then none
  else if m ≤ 0 then none
  else
    match extGcdLoop m n (b.deg + 2) a b (ConvPoly.constant 1) (ConvPoly.constant 0)
        (ConvPoly.constant 0) (ConvPoly.constant 1) with
    | none => none
    | some (g, s, t) =>
        match intInverse g.lc m with
        | none => some (g, s, t)
        | some c =>
            some ((g.mul (ConvPoly.constant c) n).modulo m,
              (s.mul (ConvPoly.constant c) n).modulo m,
              (t.mul (ConvPoly.constant c) n).modulo m)

/-- The modulus polynomial `x^n - 1` built inside `ConvPoly::inverse`. -/
def modPoly (n : Nat) : ConvPoly :=
  if n = 0 then ⟨[1]⟩ else ⟨-1 :: (List.replicate (n - 1) 0 ++ [1])⟩

/-- `ConvPoly::inverse`: extended gcd against `x^n - 1` with ring size
`n + 1`; `none` models every `Err` return (zero polynomial, failed division
step, or a gcd different from the constant 1). -/
def ConvPoly.inverse (p : ConvPoly) (m : Int) (n : Nat) : Option ConvPoly :=
  if p.isZero = true then none
  else
    match ConvPoly.extended_gcd p (modPoly n) m (n + 1) with
    | none => none
    | some (g, s, _) => if g = ConvPoly.constant 1 then some s else none

theorem modPoly_length (n : Nat) : (modPoly n).coeffs.length = n + 1 := by
  unfold modPoly
  by_cases h : n = 0
  · simp [h]
  · rw [if_neg h]
    simp only [List.length_cons, List.length_append, List.length_replicate,
      List.length_nil]
    omega

theorem termPoly_length (d : Nat) (c : Int) : (termPoly d c).coeffs.length = d + 1 := by
  simp [termPoly]

theorem termPoly_coeff (d : Nat) (c : Int) (j : Nat) :
    (termPoly d c).coeff j = if j = d then c else 0 := by
  unfold termPoly ConvPoly.coeff
  induction d generalizing j with
  | zero =>
    cases j with
    | zero => rfl
    | succ i => simp [coeffAt]
  | succ d ih =>
    cases j with
    | zero => simp [coeffAt, List.replicate_succ]
    | succ i =>
      have : coeffAt (List.replicate (d + 1) 0 ++ [c]) (i + 1) =
          coeffAt (List.replicate d 0 ++ [c]) i := by
        simp [coeffAt, List.replicate_succ]
      rw [this, ih i]
      by_cases hid : i = d
      · rw [if_pos hid, if_pos (by omega)]
      · rw [if_neg hid, if_neg (by omega)]

theorem ConvPoly.deg_lt_of_len_le (p : ConvPoly) (n : Nat) (hp : p.coeffs.length ≤ n)
    (hn : 0 < n) : p.deg < n := by
  unfold ConvPoly.deg
  have h1 := stripzeros_length_le p.coeffs
  omega

theorem strip_length_le_of_vanish (l : List Int) (R : Nat)
    (h : ∀ k, R ≤ k → coeffAt l k = 0) : (stripzeros l).length ≤ R := by
  by_contra hc
  push_neg at hc
  have hne : stripzeros l ≠ [] := by
    intro hnil
    rw [hnil] at hc
    simp at hc
  have hlast := stripzeros_last_ne l hne
  rw [coeffAt_stripzeros] at hlast
  exact hlast (h _ (by omega))

theorem cconv_sub_right (n : Nat) (f g h : Nat → Int) (k : Nat) :
    cconv n f (fun i => g i - h i) k = cconv n f g k - cconv n f h k := by
  unfold cconv
  rw [← Finset.sum_sub_distrib]
  apply Finset.sum_congr rfl
  intro ij _
  by_cases hc : (ij.1 + ij.2) % n = k
  · rw [if_pos hc, if_pos hc, if_pos hc]
    ring
  · rw [if_neg hc, if_neg hc, if_neg hc]
    ring

theorem cconv_add_left (n : Nat) (f g h : Nat → Int) (k : Nat) :
    cconv n (fun i => f i + g i) h k = cconv n f h k + cconv n g h k := by
  rw [cconv_comm, cconv_add_right, cconv_comm n h f, cconv_comm n h g]

theorem cconv_zero_right (n : Nat) (f g : Nat → Int) (k : Nat)
    (hg : ∀ j, g j = 0) : cconv n f g k = 0 := by
  unfold cconv
  apply Finset.sum_eq_zero
  intro ij _
  rw [hg ij.2, mul_zero, ite_self]

/-- Scaling the right operand of the convolution. -/
theorem cconv_smul_right (n : Nat) (c : Int) (f g : Nat → Int) (k : Nat) :
    cconv n f (fun j => c * g j) k = c * cconv n f g k := by
  rw [cconv_comm, cconv_smul_left, cconv_comm]

/-- Multiplying by a constant polynomial on the right scales coefficients. -/
theorem ConvPoly.mul_constant_coeff (p : ConvPoly) (c : Int) (n : Nat) (hn : 0 < n)
    (hp : p.coeffs.length ≤ n) (k : Nat) :
    (p.mul (ConvPoly.constant c) n).coeff k = c * p.coeff k := by
  rw [ConvPoly.coeff_mul _ _ n hn hp (by simpa [ConvPoly.constant] using hn) k,
    cconv_comm, ConvPoly.coeff_constant_fun]
  exact cconv_const n hn c p.coeff (ConvPoly.coeff_eq_zero_of_len_le p n hp) k

/-- Convolving a function supported on `[0, dd]` with a single term `c * x^d`
vanishes above index `dd + d` (inside the ring). -/
theorem cconv_single_zero (n : Nat) (f : Nat → Int) (dd d k : Nat) (c : Int)
    (hf : ∀ i, dd < i → f i = 0) (hn : dd + d < n) (hk : dd + d < k) :
    cconv n f (fun j => if j = d then c else 0) k = 0 := by
  unfold cconv
  apply Finset.sum_eq_zero
  intro ij hmem
  by_cases hc : (ij.1 + ij.2) % n = k
  · rw [if_pos hc]
    by_cases hj : ij.2 = d
    · by_cases hi : dd < ij.1
      · rw [hf ij.1 hi, zero_mul]
      · exfalso
        push_neg at hi
        have hlt : ij.1 + ij.2 < n := by omega
        rw [Nat.mod_eq_of_lt hlt] at hc
        omega
    · simp only [if_neg hj, mul_zero]
  · rw [if_neg hc]

/-- Convolving a function supported on `[0, dd]` with a single term `c * x^d`
at index `dd + d` picks out the leading product. -/
theorem cconv_single_top (n : Nat) (f : Nat → Int) (dd d : Nat) (c : Int)
    (hf : ∀ i, dd < i → f i = 0) (hn : dd + d < n) :
    cconv n f (fun j => if j = d then c else 0) (dd + d) = f dd * c := by
  unfold cconv
  rw [Finset.sum_eq_single_of_mem (⟨dd, d⟩ : Nat × Nat)]
  · simp [Nat.mod_eq_of_lt hn]
  · rw [Finset.mem_product]
    exact ⟨Finset.mem_range.mpr (by omega), Finset.mem_range.mpr (by omega)⟩
  · intro ij _ hne
    by_cases hc : (ij.1 + ij.2) % n = dd + d
    · rw [if_pos hc]
      by_cases hj : ij.2 = d
      · by_cases hi : dd < ij.1
        · rw [hf ij.1 hi, zero_mul]
        · exfalso
          push_neg at hi
          have hlt : ij.1 + ij.2 < n := by omega
          rw [Nat.mod_eq_of_lt hlt] at hc
          apply hne
          have : ij.1 = dd := by omega
          exact Prod.ext this hj
      · simp only [if_neg hj, mul_zero]
    · rw [if_neg hc]

/-- One `div_mod` loop iteration kills the remainder's leading coefficient:
the updated remainder is zero or has strictly smaller degree. -/
theorem divStep_deg_drop (divisor r : ConvPoly) (m : Int) (n : Nat) (v : Int)
    (_hm : 0 < m) (hn : 0 < n) (_hr : r.isZero = false)
    (hv : divisor.lc * v ≡ 1 [ZMOD m]) (hrlen : r.coeffs.length ≤ n)
    (hdlen : divisor.coeffs.length ≤ n) (hdeg : divisor.deg ≤ r.deg) :
    ((r.sub (divisor.mul (termPoly (r.deg - divisor.deg) ((r.lc * v) % m)) n)).modulo
        m).isZero = true ∨
      ((r.sub (divisor.mul (termPoly (r.deg - divisor.deg) ((r.lc * v) % m)) n)).modulo
        m).deg < r.deg := by
  have hRlt : r.deg < n := ConvPoly.deg_lt_of_len_le r n hrlen hn
  have hsum : divisor.deg + (r.deg - divisor.deg) = r.deg := by omega
  have hfsupp : ∀ i, divisor.deg < i → divisor.coeff i = 0 :=
    fun i hi => ConvPoly.coeff_eq_zero_of_deg_lt divisor i hi
  have hTcoeff : (termPoly (r.deg - divisor.deg) ((r.lc * v) % m)).coeff =
      fun j => if j = r.deg - divisor.deg then (r.lc * v) % m else 0 :=
    funext (termPoly_coeff _ _)
  have hPcoeff : ∀ k,
      (divisor.mul (termPoly (r.deg - divisor.deg) ((r.lc * v) % m)) n).coeff k =
        cconv n divisor.coeff
          (fun j => if j = r.deg - divisor.deg then (r.lc * v) % m else 0) k := by
    intro k
    rw [ConvPoly.coeff_mul _ _ n hn hdlen
      (by rw [termPoly_length]; omega) k, hTcoeff]
  have hcc : divisor.lc * ((r.lc * v) % m) ≡ r.lc [ZMOD m] := by
    have h1 : ((r.lc * v) % m) ≡ r.lc * v [ZMOD m] :=
      Int.emod_emod_of_dvd _ dvd_rfl
    calc divisor.lc * ((r.lc * v) % m)
        ≡ divisor.lc * (r.lc * v) [ZMOD m] := h1.mul_left _
      _ = (divisor.lc * v) * r.lc := by ring
      _ ≡ 1 * r.lc [ZMOD m] := hv.mul_right _
      _ = r.lc := one_mul _
  have hvanish : ∀ k, r.deg ≤ k →
      ((r.sub (divisor.mul (termPoly (r.deg - divisor.deg) ((r.lc * v) % m)) n)).modulo
        m).coeff k = 0 := by
    intro k hk
    rw [ConvPoly.coeff_modulo, ConvPoly.coeff_sub, hPcoeff]
    rcases Nat.lt_or_ge r.deg k with hlt | hge
    · rw [ConvPoly.coeff_eq_zero_of_deg_lt r k hlt,
        cconv_single_zero n divisor.coeff divisor.deg (r.deg - divisor.deg) k
          ((r.lc * v) % m) hfsupp (by omega) (by omega)]
      simp
    · have hkR : k = r.deg := by omega
      subst hkR
      have htop := cconv_single_top n divisor.coeff divisor.deg (r.deg - divisor.deg)
        ((r.lc * v) % m) hfsupp (by omega)
      rw [hsum] at htop
      rw [htop]
      have hlc : r.coeff r.deg = r.lc := rfl
      have hdlc : divisor.coeff divisor.deg = divisor.lc := rfl
      rw [hlc, hdlc]
      exact Int.emod_eq_zero_of_dvd hcc.dvd
  have hstrip := strip_length_le_of_vanish
    ((r.sub (divisor.mul (termPoly (r.deg - divisor.deg) ((r.lc * v) % m)) n)).modulo
      m).coeffs r.deg hvanish
  by_cases hz : stripzeros ((r.sub (divisor.mul (termPoly (r.deg - divisor.deg)
      ((r.lc * v) % m)) n)).modulo m).coeffs = []
  · left
    rw [ConvPoly.isZero_iff]
    intro i
    exact coeffAt_eq_zero_of_ge _ i (by rw [hz]; exact Nat.zero_le i)
  · right
    have hL : 0 < (stripzeros ((r.sub (divisor.mul (termPoly (r.deg - divisor.deg)
        ((r.lc * v) % m)) n)).modulo m).coeffs).length := List.length_pos.mpr hz
    have hdeg' : ((r.sub (divisor.mul (termPoly (r.deg - divisor.deg)
        ((r.lc * v) % m)) n)).modulo m).deg =
        (stripzeros ((r.sub (divisor.mul (termPoly (r.deg - divisor.deg)
          ((r.lc * v) % m)) n)).modulo m).coeffs).length - 1 := rfl
    rw [hdeg']
    omega

/-- If the `div_mod` loop returns, its result satisfies the division
congruence relative to its inputs, the exit condition, and the length
bounds. -/
theorem divModLoop_sound (divisor : ConvPoly) (m : Int) (n : Nat) (v : Int)
    (_hm : 0 < m) (hn : 0 < n) (hdl : divisor.coeffs.length ≤ n) :
    ∀ fuel q r q' r', q.coeffs.length ≤ n → r.coeffs.length ≤ n →
    divModLoop divisor m n v fuel q r = some (q', r') →
    (∀ k, cconv n divisor.coeff q'.coeff k + r'.coeff k ≡
        cconv n divisor.coeff q.coeff k + r.coeff k [ZMOD m]) ∧
    (r'.isZero = true ∨ r'.deg < divisor.deg) ∧
    r'.coeffs.length ≤ n ∧ q'.coeffs.length ≤ n := by
  intro fuel
  induction fuel with
  | zero => intro q r q' r' _ _ h; exact absurd h (by simp [divModLoop])
  | succ fuel ih =>
    intro q r q' r' hql hrl h
    rw [divModLoop] at h
    by_cases hcond : divisor.deg ≤ r.deg ∧ r.isZero = false
    · rw [if_pos hcond] at h
      have hRlt : r.deg < n := ConvPoly.deg_lt_of_len_le r n hrl hn
      have htlen : (termPoly (r.deg - divisor.deg) ((r.lc * v) % m)).coeffs.length ≤ n := by
        rw [termPoly_length]; omega
      have hql' : ((q.add (termPoly (r.deg - divisor.deg)
          ((r.lc * v) % m))).modulo m).coeffs.length ≤ n :=
        le_trans (ConvPoly.length_modulo_le _ _)
          (le_trans (ConvPoly.length_add_le _ _) (max_le hql htlen))
      have hrl' : ((r.sub (divisor.mul (termPoly (r.deg - divisor.deg)
          ((r.lc * v) % m)) n)).modulo m).coeffs.length ≤ n :=
        le_trans (ConvPoly.length_modulo_le _ _)
          (le_trans (ConvPoly.length_sub_le _ _)
            (max_le hrl (ConvPoly.length_mul_le _ _ n hn)))
      obtain ⟨hcong, hexit, hrlen2, hqlen2⟩ := ih _ _ _ _ hql' hrl' h
      refine ⟨?_, hexit, hrlen2, hqlen2⟩
      intro k
      refine (hcong k).trans ?_
      have hq1 : ∀ j, ((q.add (termPoly (r.deg - divisor.deg)
          ((r.lc * v) % m))).modulo m).coeff j ≡
          q.coeff j + (termPoly (r.deg - divisor.deg) ((r.lc * v) % m)).coeff j
          [ZMOD m] := by
        intro j
        rw [ConvPoly.coeff_modulo, ConvPoly.coeff_add]
        exact Int.emod_emod_of_dvd _ dvd_rfl
      have hr1 : ((r.sub (divisor.mul (termPoly (r.deg - divisor.deg)
          ((r.lc * v) % m)) n)).modulo m).coeff k ≡
          r.coeff k - cconv n divisor.coeff
            (termPoly (r.deg - divisor.deg) ((r.lc * v) % m)).coeff k [ZMOD m] := by
        rw [ConvPoly.coeff_modulo, ConvPoly.coeff_sub,
          ConvPoly.coeff_mul _ _ n hn hdl htlen]
        exact Int.emod_emod_of_dvd _ dvd_rfl
      have hq2 : cconv n divisor.coeff ((q.add (termPoly (r.deg - divisor.deg)
          ((r.lc * v) % m))).modulo m).coeff k ≡
          cconv n divisor.coeff q.coeff k + cconv n divisor.coeff
            (termPoly (r.deg - divisor.deg) ((r.lc * v) % m)).coeff k [ZMOD m] := by
        refine (cconv_congr n m _ _ _ _ (fun i => Int.ModEq.refl _) hq1 k).trans ?_
        rw [show (fun j => q.coeff j + (termPoly (r.deg - divisor.deg)
            ((r.lc * v) % m)).coeff j) =
          (fun j => q.coeff j + (termPoly (r.deg - divisor.deg)
            ((r.lc * v) % m)).coeff j) from rfl, cconv_add_right]
      calc cconv n divisor.coeff ((q.add (termPoly (r.deg - divisor.deg)
              ((r.lc * v) % m))).modulo m).coeff k +
            ((r.sub (divisor.mul (termPoly (r.deg - divisor.deg)
              ((r.lc * v) % m)) n)).modulo m).coeff k
          ≡ (cconv n divisor.coeff q.coeff k + cconv n divisor.coeff
              (termPoly (r.deg - divisor.deg) ((r.lc * v) % m)).coeff k) +
            (r.coeff k - cconv n divisor.coeff
              (termPoly (r.deg - divisor.deg) ((r.lc * v) % m)).coeff k)
            [ZMOD m] := Int.ModEq.add hq2 hr1
        _ = cconv n divisor.coeff q.coeff k + r.coeff k := by ring
    · rw [if_neg hcond] at h
      have hqr : q = q' ∧ r = r' := by
        constructor
        · exact congrArg Prod.fst (Option.some.inj h)
        · exact congrArg Prod.snd (Option.some.inj h)
      obtain ⟨hq, hr⟩ := hqr
      subst hq
      subst hr
      refine ⟨fun k => Int.ModEq.refl _, ?_, hrl, hql⟩
      by_cases hz : r.isZero = true
      · exact Or.inl hz
      · right
        have hfalse : r.isZero = false := by
          cases hb : r.isZero with
          | false => rfl
          | true => exact absurd hb hz
        have : ¬ divisor.deg ≤ r.deg := fun hle => hcond ⟨hle, hfalse⟩
        omega

/-- With fuel exceeding the remainder's degree by two, the `div_mod` loop
always returns (the degree strictly decreases at every iteration). -/
theorem divModLoop_total (divisor : ConvPoly) (m : Int) (n : Nat) (v : Int)
    (hm : 0 < m) (hn : 0 < n) (hdl : divisor.coeffs.length ≤ n)
    (hv : divisor.lc * v ≡ 1 [ZMOD m]) :
    ∀ fuel q r, r.coeffs.length ≤ n → r.deg + 2 ≤ fuel →
    ∃ out, divModLoop divisor m n v fuel q r = some out := by
  intro fuel
  induction fuel with
  | zero => intro q r _ hf; omega
  | succ fuel ih =>
    intro q r hrl hf
    rw [divModLoop]
    by_cases hcond : divisor.deg ≤ r.deg ∧ r.isZero = false
    · rw [if_pos hcond]
      have hdrop := divStep_deg_drop divisor r m n v hm hn hcond.2 hv hrl hdl hcond.1
      have hrl' : ((r.sub (divisor.mul (termPoly (r.deg - divisor.deg)
          ((r.lc * v) % m)) n)).modulo m).coeffs.length ≤ n :=
        le_trans (ConvPoly.length_modulo_le _ _)
          (le_trans (ConvPoly.length_sub_le _ _)
            (max_le hrl (ConvPoly.length_mul_le _ _ n hn)))
      rcases hdrop with hzero | hlt
      · cases fuel with
        | zero => omega
        | succ fuel' =>
          rw [divModLoop, if_neg (fun hc => by rw [hzero] at hc; exact absurd hc.2 (by simp))]
          exact ⟨_, rfl⟩
      · exact ih _ _ hrl' (by omega)
    · rw [if_neg hcond]
      exact ⟨_, rfl⟩

theorem ConvPoly.mul_one_coeff (p : ConvPoly) (n : Nat) (hn : 0 < n)
    (hp : p.coeffs.length ≤ n) (k : Nat) :
    (p.mul (ConvPoly.constant 1) n).coeff k = p.coeff k := by
  rw [ConvPoly.mul_constant_coeff p 1 n hn hp k, one_mul]

/-- Soundness of `div_mod`: a successful division satisfies the division
congruence in `(Z/mZ)[x]/(x^n - 1)` and the exit condition. -/
theorem div_mod_spec (p divisor : ConvPoly) (m : Int) (n : Nat) (q r : ConvPoly)
    (hm : 0 < m) (hn : 0 < n) (hdl : divisor.coeffs.length ≤ n)
    (hpl : p.coeffs.length ≤ n)
    (h : p.div_mod divisor m n = some (q, r)) :
    (∀ k, p.coeff k ≡ cconv n divisor.coeff q.coeff k + r.coeff k [ZMOD m]) ∧
    (r.isZero = true ∨ r.deg < divisor.deg) ∧ r.coeffs.length ≤ n ∧
    q.coeffs.length ≤ n := by
  unfold ConvPoly.div_mod at h
  by_cases hdz : divisor.isZero = true
  · rw [if_pos hdz] at h
    exact absurd h (by simp)
  · rw [if_neg hdz] at h
    cases hiv : intInverse divisor.lc m with
    | none =>
      rw [hiv] at h
      exact absurd h (by simp)
    | some v =>
      rw [hiv] at h
      have hq0 : (ConvPoly.constant 0).coeffs.length ≤ n := by
        simpa [ConvPoly.constant] using hn
      have hr0 : (p.mul (ConvPoly.constant 1) n).coeffs.length ≤ n :=
        ConvPoly.length_mul_le _ _ n hn
      obtain ⟨hcong, hexit, hrl, hql⟩ :=
        divModLoop_sound divisor m n v hm hn hdl _ _ _ _ _ hq0 hr0 h
      refine ⟨?_, hexit, hrl, hql⟩
      intro k
      have hzero : cconv n divisor.coeff (ConvPoly.constant 0).coeff k = 0 :=
        cconv_zero_right n _ _ k (fun j => by rw [ConvPoly.coeff_constant]; simp)
      have hone : (p.mul (ConvPoly.constant 1) n).coeff k = p.coeff k :=
        ConvPoly.mul_one_coeff p n hn hpl k
      have := (hcong k).symm
      rw [hzero, hone, zero_add] at this
      exact this

/-- Totality of `div_mod` for a non-zero divisor with invertible leading
coefficient. -/
theorem div_mod_total (p divisor : ConvPoly) (m : Int) (n : Nat) (v : Int)
    (hm : 0 < m) (hn : 0 < n) (hd : divisor.isZero = false)
    (hdl : divisor.coeffs.length ≤ n)
    (hv : intInverse divisor.lc m = some v) :
    ∃ qr, p.div_mod divisor m n = some qr := by
  unfold ConvPoly.div_mod
  rw [if_neg (by rw [hd]; simp), hv]
  exact divModLoop_total divisor m n v hm hn hdl (intInverse_spec _ _ _ hm hv) _ _ _
    (ConvPoly.length_mul_le _ _ n hn) (by omega)

/-- Claim C6: for a dividend and a non-zero divisor with coefficients inside
the ring and an invertible leading coefficient mod `m`, `div_mod` returns a
quotient `q` and remainder `r` with `a ≡ d*q + r` in `(Z/mZ)[x]/(x^n - 1)`,
and the remainder is the zero polynomial or has degree strictly below the
divisor's (the claim's unconditional `deg r < deg d` fails for exact
divisions by degree-0 divisors, since `deg` reports 0 on the zero
polynomial). -/
theorem claim_C6_div_mod (a d : ConvPoly) (m : Int) (n : Nat) (v : Int)
    (hm : 0 < m) (hn : 0 < n) (hd : d.isZero = false)
    (hdl : d.coeffs.length ≤ n) (hal : a.coeffs.length ≤ n)
    (hv : intInverse d.lc m = some v) :
    ∃ q r, a.div_mod d m n = some (q, r) ∧
      (∀ k, a.coeff k ≡ cconv n d.coeff q.coeff k + r.coeff k [ZMOD m]) ∧
      (r.isZero = true ∨ r.deg < d.deg) := by
  obtain ⟨⟨q, r⟩, hqr⟩ := div_mod_total a d m n v hm hn hd hdl hv
  obtain ⟨hcong, hexit, _, _⟩ := div_mod_spec a d m n q r hm hn hdl hal hqr
  exact ⟨q, r, hqr, hcong, hexit⟩

/-- Witness for claim C6: dividing `2 + 3x + x^2` by `1 + x` mod 5 in ring
size 3. -/
theorem claim_C6_div_mod_witness :
    intInverse (ConvPoly.lc ⟨[1, 1]⟩) 5 = some 1 ∧
    (∃ q r, ConvPoly.div_mod ⟨[2, 3, 1]⟩ ⟨[1, 1]⟩ 5 3 = some (q, r) ∧
      (∀ k, (⟨[2, 3, 1]⟩ : ConvPoly).coeff k ≡
        cconv 3 (ConvPoly.coeff ⟨[1, 1]⟩) q.coeff k + r.coeff k [ZMOD 5]) ∧
      (r.isZero = true ∨ r.deg < ConvPoly.deg ⟨[1, 1]⟩)) :=
  ⟨by decide, claim_C6_div_mod ⟨[2, 3, 1]⟩ ⟨[1, 1]⟩ 5 3 1 (by decide) (by decide)
    (by decide) (by decide) (by decide) (by decide)⟩

/-- Counterexample for claim C6: dividing `1` by `1` mod 2 in ring size 2 is
exact, so the remainder is the zero polynomial, whose reported degree 0 is
not strictly below the divisor's degree 0. -/
theorem claim_C6_counterexample :
    ConvPoly.div_mod ⟨[1]⟩ ⟨[1]⟩ 2 2 = some (⟨[1]⟩, ⟨[0]⟩) ∧
    (⟨[1]⟩ : ConvPoly).isZero = false ∧
    intInverse (ConvPoly.lc ⟨[1]⟩) 2 = some 1 ∧
    ¬ (ConvPoly.deg ⟨[0]⟩ < ConvPoly.deg ⟨[1]⟩) := by decide

/-- If the `extended_gcd` loop returns, the Bezout combination invariant
carries to the returned triple: `a * gs + b * gt ≡ g` in
`(Z/mZ)[x]/(x^n - 1)`. -/
theorem extGcdLoop_sound (a b : ConvPoly) (m : Int) (n : Nat)
    (hm : 0 < m) (hn : 0 < n) :
    ∀ fuel or r os s ot t g gs gt,
    or.coeffs.length ≤ n → r.coeffs.length ≤ n →
    os.coeffs.length ≤ n → s.coeffs.length ≤ n →
    ot.coeffs.length ≤ n → t.coeffs.length ≤ n →
    (∀ k, cconv n a.coeff os.coeff k + cconv n b.coeff ot.coeff k ≡
      or.coeff k [ZMOD m]) →
    (∀ k, cconv n a.coeff s.coeff k + cconv n b.coeff t.coeff k ≡
      r.coeff k [ZMOD m]) →
    extGcdLoop m n fuel or r os s ot t = some (g, gs, gt) →
    (∀ k, cconv n a.coeff gs.coeff k + cconv n b.coeff gt.coeff k ≡
      g.coeff k [ZMOD m]) ∧
    g.coeffs.length ≤ n ∧ gs.coeffs.length ≤ n ∧ gt.coeffs.length ≤ n := by
  intro fuel
  induction fuel with
  | zero =>
    intro or r os s ot t g gs gt _ _ _ _ _ _ _ _ h
    exact absurd h (by simp [extGcdLoop])
  | succ fuel ih =>
    intro or r os s ot t g gs gt hol hrl hosl hsl hotl htl invOld invCur h
    rw [extGcdLoop] at h
    by_cases hz : r.isZero = true
    · rw [if_pos hz] at h
      have h' := Option.some.inj h
      have hg : or = g := congrArg Prod.fst h'
      have hrest := congrArg Prod.snd h'
      have hgs : os = gs := congrArg Prod.fst hrest
      have hgt : ot = gt := congrArg Prod.snd hrest
      subst hg
      subst hgs
      subst hgt
      exact ⟨invOld, hol, hosl, hotl⟩
    · rw [if_neg hz] at h
      cases hdm : ConvPoly.div_mod or r m n with
      | none =>
        rw [hdm] at h
        exact absurd h (by simp)
      | some qr =>
        obtain ⟨q, new_r⟩ := qr
        rw [hdm] at h
        obtain ⟨hdiv, _hexit, hnrl, hql⟩ := div_mod_spec or r m n q new_r hm hn hrl hol hdm
        have side : ∀ (x y : ConvPoly), x.coeffs.length ≤ n → y.coeffs.length ≤ n →
            ∀ (f : Nat → Int) (k : Nat),
            cconv n f ((x.sub (y.mul q n)).modulo m).coeff k ≡
              cconv n f x.coeff k - cconv n (cconv n f y.coeff) q.coeff k [ZMOD m] := by
          intro x y hx hy f k
          have hcoef : ∀ j, ((x.sub (y.mul q n)).modulo m).coeff j ≡
              x.coeff j - cconv n y.coeff q.coeff j [ZMOD m] := by
            intro j
            rw [ConvPoly.coeff_modulo, ConvPoly.coeff_sub,
              ConvPoly.coeff_mul _ _ n hn hy hql]
            exact Int.emod_emod_of_dvd _ dvd_rfl
          refine (cconv_congr n m f f _ _ (fun i => Int.ModEq.refl _) hcoef k).trans ?_
          rw [cconv_sub_right, ← cconv_assoc n hn f y.coeff q.coeff k]
        have hs'l : ((os.sub (s.mul q n)).modulo m).coeffs.length ≤ n :=
          le_trans (ConvPoly.length_modulo_le _ _)
            (le_trans (ConvPoly.length_sub_le _ _)
              (max_le hosl (ConvPoly.length_mul_le _ _ n hn)))
        have ht'l : ((ot.sub (t.mul q n)).modulo m).coeffs.length ≤ n :=
          le_trans (ConvPoly.length_modulo_le _ _)
            (le_trans (ConvPoly.length_sub_le _ _)
              (max_le hotl (ConvPoly.length_mul_le _ _ n hn)))
        have invNew : ∀ k,
            cconv n a.coeff ((os.sub (s.mul q n)).modulo m).coeff k +
              cconv n b.coeff ((ot.sub (t.mul q n)).modulo m).coeff k ≡
            new_r.coeff k [ZMOD m] := by
          intro k
          have h3 : cconv n (cconv n a.coeff s.coeff) q.coeff k +
              cconv n (cconv n b.coeff t.coeff) q.coeff k ≡
              cconv n r.coeff q.coeff k [ZMOD m] := by
            rw [← cconv_add_left]
            exact cconv_congr n m _ r.coeff q.coeff q.coeff invCur
              (fun j => Int.ModEq.refl _) k
          calc cconv n a.coeff ((os.sub (s.mul q n)).modulo m).coeff k +
                cconv n b.coeff ((ot.sub (t.mul q n)).modulo m).coeff k
              ≡ (cconv n a.coeff os.coeff k -
                  cconv n (cconv n a.coeff s.coeff) q.coeff k) +
                (cconv n b.coeff ot.coeff k -
                  cconv n (cconv n b.coeff t.coeff) q.coeff k) [ZMOD m] :=
                Int.ModEq.add (side os s hosl hsl a.coeff k)
                  (side ot t hotl htl b.coeff k)
            _ = (cconv n a.coeff os.coeff k + cconv n b.coeff ot.coeff k) -
                (cconv n (cconv n a.coeff s.coeff) q.coeff k +
                  cconv n (cconv n b.coeff t.coeff) q.coeff k) := by ring
            _ ≡ or.coeff k - cconv n r.coeff q.coeff k [ZMOD m] :=
                Int.ModEq.sub (invOld k) h3
            _ ≡ (cconv n r.coeff q.coeff k + new_r.coeff k) -
                cconv n r.coeff q.coeff k [ZMOD m] :=
                Int.ModEq.sub (hdiv k) (Int.ModEq.refl _)
            _ = new_r.coeff k := by ring
        exact ih r new_r s _ t _ g gs gt hrl hnrl hsl hs'l htl ht'l invCur invNew h

/-- A successful `extended_gcd` returns a Bezout triple:
`a*s + b*t ≡ gcd` in `(Z/mZ)[x]/(x^n - 1)`. -/
theorem extended_gcd_sound (a b : ConvPoly) (m : Int) (n : Nat) (g s t : ConvPoly)
    (hm : 0 < m) (hn : 0 < n) (hal : a.coeffs.length ≤ n) (hbl : b.coeffs.length ≤ n)
    (h : ConvPoly.extended_gcd a b m n = some (g, s, t)) :
    (∀ k, cconv n a.coeff s.coeff k + cconv n b.coeff t.coeff k ≡
      g.coeff k [ZMOD m]) ∧
    g.coeffs.length ≤ n ∧ s.coeffs.length ≤ n ∧ t.coeffs.length ≤ n := by
  unfold ConvPoly.extended_gcd at h
  by_cases hz : a.isZero = true ∧ b.isZero = true
  · rw [if_pos hz] at h
    exact absurd h (by simp)
  · rw [if_neg hz, if_neg (by omega)] at h
    have hc1 : (ConvPoly.constant 1).coeffs.length ≤ n := by
      simpa [ConvPoly.constant] using hn
    have hc0 : (ConvPoly.constant 0).coeffs.length ≤ n := by
      simpa [ConvPoly.constant] using hn
    have invOld : ∀ k, cconv n a.coeff (ConvPoly.constant 1).coeff k +
        cconv n b.coeff (ConvPoly.constant 0).coeff k ≡ a.coeff k [ZMOD m] := by
      intro k
      rw [ConvPoly.coeff_constant_fun, ConvPoly.coeff_constant_fun,
        cconv_comm n a.coeff, cconv_comm n b.coeff,
        cconv_const n hn 1 a.coeff (ConvPoly.coeff_eq_zero_of_len_le a n hal) k,
        cconv_const n hn 0 b.coeff (ConvPoly.coeff_eq_zero_of_len_le b n hbl) k]
      simp
    have invCur : ∀ k, cconv n a.coeff (ConvPoly.constant 0).coeff k +
        cconv n b.coeff (ConvPoly.constant 1).coeff k ≡ b.coeff k [ZMOD m] := by
      intro k
      rw [ConvPoly.coeff_constant_fun, ConvPoly.coeff_constant_fun,
        cconv_comm n a.coeff, cconv_comm n b.coeff,
        cconv_const n hn 0 a.coeff (ConvPoly.coeff_eq_zero_of_len_le a n hal) k,
        cconv_const n hn 1 b.coeff (ConvPoly.coeff_eq_zero_of_len_le b n hbl) k]
      simp
    cases hloop : extGcdLoop m n (b.deg + 2) a b (ConvPoly.constant 1)
        (ConvPoly.constant 0) (ConvPoly.constant 0) (ConvPoly.constant 1) with
    | none =>
      rw [hloop] at h
      exact absurd h (by simp)
    | some gst =>
      obtain ⟨g0, s0, t0⟩ := gst
      rw [hloop] at h
      obtain ⟨hbez, hgl, hsl, htl⟩ := extGcdLoop_sound a b m n hm hn _ _ _ _ _ _ _
        g0 s0 t0 hal hbl hc1 hc0 hc0 hc1 invOld invCur hloop
      dsimp only at h
      cases hinv : intInverse g0.lc m with
      | none =>
        rw [hinv] at h
        have h' := Option.some.inj h
        have hg : g0 = g := congrArg Prod.fst h'
        have hrest := congrArg Prod.snd h'
        have hgs : s0 = s := congrArg Prod.fst hrest
        have hgt : t0 = t := congrArg Prod.snd hrest
        subst hg
        subst hgs
        subst hgt
        exact ⟨hbez, hgl, hsl, htl⟩
      | some c =>
        rw [hinv] at h
        have h' := Option.some.inj h
        have hg : (g0.mul (ConvPoly.constant c) n).modulo m = g :=
          congrArg Prod.fst h'
        have hrest := congrArg Prod.snd h'
        have hgs : (s0.mul (ConvPoly.constant c) n).modulo m = s :=
          congrArg Prod.fst hrest
        have hgt : (t0.mul (ConvPoly.constant c) n).modulo m = t :=
          congrArg Prod.snd hrest
        subst hg
        subst hgs
        subst hgt
        refine ⟨?_, le_trans (ConvPoly.length_modulo_le _ _)
            (ConvPoly.length_mul_le _ _ n hn),
          le_trans (ConvPoly.length_modulo_le _ _) (ConvPoly.length_mul_le _ _ n hn),
          le_trans (ConvPoly.length_modulo_le _ _) (ConvPoly.length_mul_le _ _ n hn)⟩
        intro k
        have hscale : ∀ (x : ConvPoly), x.coeffs.length ≤ n → ∀ (f : Nat → Int),
            cconv n f ((x.mul (ConvPoly.constant c) n).modulo m).coeff k ≡
            c * cconv n f x.coeff k [ZMOD m] := by
          intro x hx f
          have hcoef : ∀ j, ((x.mul (ConvPoly.constant c) n).modulo m).coeff j ≡
              c * x.coeff j [ZMOD m] := by
            intro j
            rw [ConvPoly.coeff_modulo, ConvPoly.mul_constant_coeff x c n hn hx j]
            exact Int.emod_emod_of_dvd _ dvd_rfl
          refine (cconv_congr n m f f _ _ (fun i => Int.ModEq.refl _) hcoef k).trans ?_
          rw [cconv_smul_right]
        have hgcoef : ((g0.mul (ConvPoly.constant c) n).modulo m).coeff k ≡
            c * g0.coeff k [ZMOD m] := by
          rw [ConvPoly.coeff_modulo, ConvPoly.mul_constant_coeff g0 c n hn hgl k]
          exact Int.emod_emod_of_dvd _ dvd_rfl
        calc cconv n a.coeff ((s0.mul (ConvPoly.constant c) n).modulo m).coeff k +
              cconv n b.coeff ((t0.mul (ConvPoly.constant c) n).modulo m).coeff k
            ≡ c * cconv n a.coeff s0.coeff k + c * cconv n b.coeff t0.coeff k
              [ZMOD m] := Int.ModEq.add (hscale s0 hsl a.coeff) (hscale t0 htl b.coeff)
          _ = c * (cconv n a.coeff s0.coeff k + cconv n b.coeff t0.coeff k) := by ring
          _ ≡ c * g0.coeff k [ZMOD m] := (hbez k).mul_left c
          _ ≡ ((g0.mul (ConvPoly.constant c) n).modulo m).coeff k [ZMOD m] :=
              hgcoef.symm

/-- Claim C5: when `inverse` returns a polynomial `s`, the extended
Euclidean run against `x^n - 1` (carried out with ring size `n + 1`)
certifies `a*s + (x^n - 1)*t ≡ 1` in `(Z/mZ)[x]/(x^(n+1) - 1)` for some
`t`; and whenever the computed gcd is not the constant 1 the operation
fails.  Invertibility of `a` in `(Z/mZ)[x]/(x^n - 1)` does not guarantee
success: a division step whose divisor has a non-invertible leading
coefficient aborts the algorithm first. -/
theorem claim_C5_inverse (a : ConvPoly) (m : Int) (n : Nat)
    (hm : 0 < m) (hal : a.coeffs.length ≤ n + 1) :
    (∀ s, a.inverse m n = some s →
      ∃ t : ConvPoly, ∀ k, cconv (n + 1) a.coeff s.coeff k +
        cconv (n + 1) (modPoly n).coeff t.coeff k ≡
        (ConvPoly.constant 1).coeff k [ZMOD m]) ∧
    (∀ g s t, ConvPoly.extended_gcd a (modPoly n) m (n + 1) = some (g, s, t) →
      g ≠ ConvPoly.constant 1 → a.inverse m n = none) := by
  constructor
  · intro s hs
    unfold ConvPoly.inverse at hs
    by_cases hz : a.isZero = true
    · rw [if_pos hz] at hs
      exact absurd hs (by simp)
    · rw [if_neg hz] at hs
      cases hgcd : ConvPoly.extended_gcd a (modPoly n) m (n + 1) with
      | none =>
        rw [hgcd] at hs
        exact absurd hs (by simp)
      | some gst =>
        obtain ⟨g, s0, t0⟩ := gst
        rw [hgcd] at hs
        dsimp only at hs
        by_cases hg1 : g = ConvPoly.constant 1
        · rw [if_pos hg1] at hs
          have hss : s0 = s := Option.some.inj hs
          subst hss
          obtain ⟨hbez, _, _, _⟩ := extended_gcd_sound a (modPoly n) m (n + 1)
            g s0 t0 hm (Nat.succ_pos n) hal (le_of_eq (modPoly_length n)) hgcd
          refine ⟨t0, fun k => ?_⟩
          rw [← hg1]
          exact hbez k
        · rw [if_neg hg1] at hs
          exact absurd hs (by simp)
  · intro g s t hgcd hne
    unfold ConvPoly.inverse
    by_cases hz : a.isZero = true
    · rw [if_pos hz]
    · rw [if_neg hz, hgcd]
      dsimp only
      rw [if_neg hne]

/-- Witness for claim C5: the constant polynomial 3 mod 2 in ring size 2. -/
theorem claim_C5_inverse_witness :
    (0 : Int) < 2 ∧
    ((∀ s, ConvPoly.inverse ⟨[3]⟩ 2 2 = some s →
      ∃ t : ConvPoly, ∀ k, cconv 3 (ConvPoly.coeff ⟨[3]⟩) s.coeff k +
        cconv 3 (modPoly 2).coeff t.coeff k ≡
        (ConvPoly.constant 1).coeff k [ZMOD 2]) ∧
    (∀ g s t, ConvPoly.extended_gcd ⟨[3]⟩ (modPoly 2) 2 3 = some (g, s, t) →
      g ≠ ConvPoly.constant 1 → ConvPoly.inverse ⟨[3]⟩ 2 2 = none)) :=
  ⟨by decide, claim_C5_inverse ⟨[3]⟩ 2 2 (by decide) (by decide)⟩

set_option maxRecDepth 400000 in
/-- Counterexample for claim C5: `1 + 2x` is invertible mod 2 in
`(Z/2Z)[x]/(x^5 - 1)` (it is congruent to the constant 1), yet `inverse`
fails, because the Euclidean step divides by `1 + 2x`, whose leading
coefficient 2 has no inverse mod 2. -/
theorem claim_C5_counterexample :
    ((⟨[1, 2]⟩ : ConvPoly).mul ⟨[1]⟩ 5).modulo 2 = ConvPoly.constant 1 ∧
    (⟨[1, 2]⟩ : ConvPoly).isZero = false ∧
    ConvPoly.inverse ⟨[1, 2]⟩ 2 5 = none := by decide
